import Mathlib

/-!
Verification of the section-price extraction and diff engine of
`check_prices.py`.

Shallow embedding conventions:
* raw text and strings are `List Char` (`Str` below);
* Python dicts (`Dict[str, float]`) are association lists in insertion
  order (`PriceMap` below), with `lookupPM`/`setPM` mirroring `d.get`
  and `d[k] = v`;
* prices are integer counts of cents (`ℕ`): every price the script
  stores is the result of `round(float(n), 2)`, a non-negative amount
  with two fractional digits, which the embedding represents exactly as
  hundredths; the rounding itself is modelled by round-half-to-even
  (`rheNat`), and the exact pre-rounding value is available as a
  rational (`decValue`) for specification statements;
* each regular expression of the script is compiled by hand into a
  deterministic matcher that follows Python's leftmost / greedy /
  backtracking semantics for that particular pattern (justified in the
  comment of each matcher).
-/

/-- The whitespace characters of the embedding: the ASCII and Latin-1
part of what Python's `str.strip` and the regex class `\s` accept
(space, tab, LF, VT, FF, CR, the separator control characters
28-31, NEL, NBSP, and the Unicode line/paragraph separators). -/
def isPySpace (c : Char) : Bool :=
  c = ' ' || c = '\t' || c = '\n' || c = '\r' ||
  c = Char.ofNat 11 || c = Char.ofNat 12 ||
  c = Char.ofNat 28 || c = Char.ofNat 29 || c = Char.ofNat 30 ||
  c = Char.ofNat 31 || c = Char.ofNat 0x85 || c = Char.ofNat 0xa0 ||
  c = Char.ofNat 0x2028 || c = Char.ofNat 0x2029

/-- The line-boundary characters of Python's `str.splitlines`
(LF, VT, FF, CR, FS, GS, RS, NEL, LINE SEPARATOR, PARAGRAPH SEPARATOR;
CR LF is handled as a single boundary in `slGo`). -/
def isLineBoundary (c : Char) : Bool :=
  c = '\n' || c = '\r' ||
  c = Char.ofNat 11 || c = Char.ofNat 12 ||
  c = Char.ofNat 28 || c = Char.ofNat 29 || c = Char.ofNat 30 ||
  c = Char.ofNat 0x85 || c = Char.ofNat 0x2028 || c = Char.ofNat 0x2029

abbrev Str := List Char

/-- A price in cents (hundredths of the currency unit). -/
abbrev Cents := ℕ

abbrev PriceMap := List (Str × Cents)

/-- Lower-case to upper-case character pairs: ASCII letters plus the
accented letters that appear in the script's character classes.  This
is the fragment of Python's `str.upper` the script relies on. -/
def upPairs : List (Char × Char) :=
  [('a', 'A'), ('b', 'B'), ('c', 'C'), ('d', 'D'), ('e', 'E'), ('f', 'F'),
   ('g', 'G'), ('h', 'H'), ('i', 'I'), ('j', 'J'), ('k', 'K'), ('l', 'L'),
   ('m', 'M'), ('n', 'N'), ('o', 'O'), ('p', 'P'), ('q', 'Q'), ('r', 'R'),
   ('s', 'S'), ('t', 'T'), ('u', 'U'), ('v', 'V'), ('w', 'W'), ('x', 'X'),
   ('y', 'Y'), ('z', 'Z'),
   ('á', 'Á'), ('é', 'É'), ('í', 'Í'), ('ó', 'Ó'), ('ú', 'Ú'),
   ('ü', 'Ü'), ('ñ', 'Ñ')]

/-- Upper-case a single character (Python `str.upper`, restricted to the
alphabet above; every other character is left unchanged). -/
def upChar (c : Char) : Char :=
  match upPairs.find? (fun p => p.1 = c) with
  | some p => p.2
  | none => c

/-- Python `str.upper` on a string. -/
def pyUpper (s : Str) : Str := s.map upChar

/-- ASCII digit test (the regex class `\d` of the embedding). -/
def isDigitC (c : Char) : Bool := '0' ≤ c && c ≤ '9'

/-- Python `str.strip()`: drop whitespace from both ends. -/
def pyStrip (s : Str) : Str :=
  ((s.dropWhile isPySpace).reverse.dropWhile isPySpace).reverse

/-- Worker for `collapseWs`; the flag records whether the previous
character was part of a whitespace run already replaced by a space. -/
def collapseGo : Bool → Str → Str
  | _, [] => []
  | prevWs, c :: rest =>
    if isPySpace c then
      if prevWs then collapseGo true rest else ' ' :: collapseGo true rest
    else c :: collapseGo false rest

/-- Python `re.sub(r"\s+", " ", s)`: replace every whitespace run by one space. -/
def collapseWs (s : Str) : Str := collapseGo false s

/-- Case-insensitive literal prefix match; returns the remainder of the
string after the prefix when it matches. -/
def dropPrefixCI : Str → Str → Option Str
  | [], rest => some rest
  | _ :: _, [] => none
  | p :: ps, c :: cs => if upChar p = upChar c then dropPrefixCI ps cs else none

/-- Worker for `pySplitlines`: accumulates the current line (reversed).
Mirrors `str.splitlines`: a boundary ends the current line; `\r\n`
counts once; a trailing boundary does not open an empty final line. -/
def slGo : Str → Str → List Str
  | [], acc => [acc.reverse]
  | '\r' :: '\n' :: rest, acc =>
    acc.reverse :: (match rest with | [] => [] | _ :: _ => slGo rest [])
  | c :: rest, acc =>
    if isLineBoundary c then
      acc.reverse :: (match rest with | [] => [] | _ :: _ => slGo rest [])
    else slGo rest (c :: acc)

/-- Python `str.splitlines` (`"".splitlines() = []`). -/
def pySplitlines (s : Str) : List Str :=
  match s with
  | [] => []
  | _ :: _ => slGo s []

/-- The characters `re.sub(r"[^\d.,]", "", s)` keeps. -/
def keepMoneyChar (c : Char) : Bool := isDigitC c || c = '.' || c = ','

/-- The cleaned-up digit string built by `parse_money_to_float`:
`re.sub(r"[^\d.,]", "", s).replace(",", "")`. -/
def moneyDigits (s : Str) : Str :=
  (s.filter keepMoneyChar).filter (fun c => c ≠ ',')

/-- Whether Python's `float()` accepts the cleaned-up string (a string
of digits and dots is a float literal iff it has at least one digit and
at most one dot). -/
def validNum (n : Str) : Bool := n.any isDigitC && n.count '.' ≤ 1

/-- Numeric value of a digit string. -/
def digitsToNat (s : Str) : ℕ := s.foldl (fun a c => 10 * a + (c.toNat - 48)) 0

/-- Integer-part digits of a decimal literal (everything before the dot). -/
def intPartDigits (n : Str) : Str := n.takeWhile (fun c => c ≠ '.')

/-- Fractional-part digits of a decimal literal (everything after the dot). -/
def fracPartDigits (n : Str) : Str := (n.dropWhile (fun c => c ≠ '.')).drop 1

/-- Round the fraction `a / b` to the nearest natural number, ties to
even: the rounding of Python's `round`. -/
def rheNat (a b : ℕ) : ℕ :=
  let q := a / b
  let r := a % b
  if 2 * r < b then q
  else if b < 2 * r then q + 1
  else if q % 2 = 0 then q else q + 1

/-- Exact rational value of a decimal literal `intpart.fracpart`
(used only in specification statements). -/
def decValue (n : Str) : ℚ :=
  (digitsToNat (intPartDigits n) : ℚ) +
    (digitsToNat (fracPartDigits n) : ℚ) / (10 ^ (fracPartDigits n).length)

/-- The function `parse_money_to_float` (check_prices.py:36-41): strip every
character that is not a digit, dot or comma, drop the commas, parse the
rest as a number rounded to two fractional digits (returned in cents);
`None` when it does not parse.  `round(float(n), 2)` on the decimal
literal `I.F` is the half-to-even rounding of `100 * (I.F)` cents. -/
def parse_money_to_float (s : Str) : Option Cents :=
  let n := moneyDigits s
  if validNum n then
    some (rheNat (100 * digitsToNat (intPartDigits n ++ fracPartDigits n))
                 (10 ^ (fracPartDigits n).length))
  else none

/-- Currency marker of the `MONEY` pattern `(?:MXN|MX\$|\$)`, matched
case-insensitively.  The three alternatives are mutually exclusive at a
given position (they differ in their first or third character), so no
backtracking across the alternation is possible.  Returns the matched
marker and the remainder. -/
def moneySym (s : Str) : Option (Str × Str) :=
  match dropPrefixCI ['M', 'X', 'N'] s with
  | some r => some (s.take 3, r)
  | none =>
    match dropPrefixCI ['M', 'X', '$'] s with
    | some r => some (s.take 3, r)
    | none =>
      match s with
      | '$' :: r => some (['$'], r)
      | _ => none

/-- The grouped-digits part `(?:[.,]\d{3})*` of `MONEY`, greedily:
consume separator-plus-three-digits blocks as long as they are present.
Greedy consumption is exact here because everything that follows in the
pattern can match the empty string. -/
def moneyGroups : Str → Str × Str
  | a :: b :: c :: d :: r =>
    if (a = '.' || a = ',') && isDigitC b && isDigitC c && isDigitC d then
      let (g, rest) := moneyGroups r
      (a :: b :: c :: d :: g, rest)
    else ([], a :: b :: c :: d :: r)
  | s => ([], s)

/-- The optional decimal part `(?:[.,]\d{2})?` of `MONEY`, greedily. -/
def moneyDec : Str → Str × Str
  | a :: b :: c :: r =>
    if (a = '.' || a = ',') && isDigitC b && isDigitC c then ([a, b, c], r)
    else ([], a :: b :: c :: r)
  | s => ([], s)

/-- The tail `\s?\d{1,3}(?:[.,]\d{3})*(?:[.,]\d{2})?` of `MONEY` after
the currency marker.  `\s?` is forced: if the next character is a
space it must be consumed (declining it would leave `\d` facing the
space), and `\d{1,3}` greedily takes up to three digits (shorter
choices are never needed since the rest of the pattern can be empty). -/
def moneyTail (s : Str) : Option Str :=
  let (ws, s1) :=
    match s with
    | c :: r => if isPySpace c then ([c], r) else ([], s)
    | [] => ([], [])
  let ds := (s1.takeWhile isDigitC).take 3
  if ds = [] then none
  else
    let s2 := s1.drop ds.length
    let (grp, s3) := moneyGroups s2
    let (dec, _) := moneyDec s3
    some (ws ++ ds ++ grp ++ dec)

/-- Full match of the `MONEY` pattern anchored at the start of `s`;
returns `mp.group(0)`. -/
def matchMoneyAt (s : Str) : Option Str :=
  match moneySym s with
  | none => none
  | some (sym, rest) => (moneyTail rest).map (fun t => sym ++ t)

/-- Python `re.search(MONEY, s, flags=re.IGNORECASE)`: leftmost match wins. -/
def moneySearch : Str → Option Str
  | [] => none
  | c :: rest =>
    match matchMoneyAt (c :: rest) with
    | some m => some m
    | none => moneySearch rest

/-- The anchored introducer `^\s*Section\s+` of `normalize_section_name`
(case-insensitive).  Returns the remainder after the (greedy, maximal)
whitespace run when the pattern matches, `none` otherwise. -/
def sectionIntroDrop (s : Str) : Option Str :=
  let t := s.dropWhile isPySpace
  match dropPrefixCI ['S', 'e', 'c', 't', 'i', 'o', 'n'] t with
  | none => none
  | some r =>
    match r with
    | [] => none
    | c :: _ => if isPySpace c then some (r.dropWhile isPySpace) else none

/-- The function `normalize_section_name` (check_prices.py:43-46): strip one leading
section introducer, collapse whitespace runs, trim, upper-case. -/
def normalize_section_name (s : Str) : Str :=
  let s1 := match sectionIntroDrop s with | some r => r | none => s
  pyUpper (pyStrip (collapseWs s1))

/-- Characters of the label class of the explicit pattern (upper-case
letters, digits, the seven accented letters, dash, slash and space),
with the lower-case letters `re.IGNORECASE` adds. -/
def labelChar (c : Char) : Bool :=
  ('A' ≤ c && c ≤ 'Z') || ('a' ≤ c && c ≤ 'z') || ('0' ≤ c && c ≤ '9') ||
  c = 'Á' || c = 'É' || c = 'Í' || c = 'Ó' || c = 'Ú' || c = 'Ü' || c = 'Ñ' ||
  c = 'á' || c = 'é' || c = 'í' || c = 'ó' || c = 'ú' || c = 'ü' || c = 'ñ' ||
  c = '-' || c = '/' || c = ' '

/-- Backtracking of `\s+` against the label group `([...]{1,40})$`: try
the maximal whitespace run first; on failure hand the last whitespace
character over to the group (legal when it is in the label class, which
contains the space), never shrinking the run below one character.
`wsRev` is the remaining whitespace run, reversed. -/
def wsLabelSplit : Str → Str → Option Str
  | wsRev, grp =>
    if grp ≠ [] && grp.length ≤ 40 && grp.all labelChar then some grp
    else
      match wsRev with
      | [] => none
      | [_] => none
      | w :: ws => wsLabelSplit ws (w :: grp)

/-- The anchored whole-line pattern of check_prices.py:74 — keyword
`SECTION` or `SECCIÓN`, whitespace, then one to forty label-class
characters up to the end of the line, case-insensitively.  Returns
`group(2)`.  The two keyword alternatives are mutually exclusive (they
differ at their fourth letter). -/
def matchExplicitLine (s : Str) : Option Str :=
  let rest :=
    match dropPrefixCI ['S', 'E', 'C', 'T', 'I', 'O', 'N'] s with
    | some r => some r
    | none => dropPrefixCI ['S', 'E', 'C', 'C', 'I', 'Ó', 'N'] s
  match rest with
  | none => none
  | some r =>
    let ws := r.takeWhile isPySpace
    if ws = [] then none
    else wsLabelSplit ws.reverse (r.dropWhile isPySpace)

/-- Word characters (`\w`) of the embedding: ASCII alphanumerics, the
underscore and the accented letters of the script's vocabulary. -/
def wordChar (c : Char) : Bool :=
  ('A' ≤ c && c ≤ 'Z') || ('a' ≤ c && c ≤ 'z') || ('0' ≤ c && c ≤ '9') ||
  c = '_' ||
  c = 'Á' || c = 'É' || c = 'Í' || c = 'Ó' || c = 'Ú' || c = 'Ü' || c = 'Ñ' ||
  c = 'á' || c = 'é' || c = 'í' || c = 'ó' || c = 'ú' || c = 'ü' || c = 'ñ'

/-- Word boundary `\b` immediately after a word character: holds at end
of string or before a non-word character. -/
def bAfter : Str → Bool
  | [] => true
  | c :: _ => !wordChar c

/-- Does `s` start with the (case-insensitive) literal `p` followed by a
word boundary? -/
def vocabHit (p : Str) (s : Str) : Bool :=
  match dropPrefixCI p s with
  | some r => bAfter r
  | none => false

/-- The test `sec_regex.search(ln)` (check_prices.py:93-95): does the line start
with one of the `SECTION_PREFIXES` alternatives followed by `\b`?
The inner optional groups `GENERAL(?:\s+[A-Z0-9]+)?` and
`GRADA(?:\s+(?:ORIENTE|...|C))?` do not change whether a match exists:
they begin with `\s+`, and when a whitespace character follows the
leading keyword the empty-optional path already has its word boundary
there, so existence reduces to keyword-plus-boundary. -/
def matchImplicitVocab (s : Str) : Bool :=
  vocabHit "GENERAL".data s || vocabHit "GRADA".data s ||
  vocabHit "VIP".data s || vocabHit "PLATEA".data s ||
  vocabHit "PREFERENTE".data s || vocabHit "CANCHA".data s ||
  vocabHit "PALCO".data s || vocabHit "BUTACA".data s

/-- The price lookahead (check_prices.py:79-86 and 105-112): walk the
following lines, take each line's first monetary token, and return the
first one that parses; a token that fails to parse only discards that
line.  In the script `price_val` keeps the last parse result and the
loop breaks on the first success, which is exactly this recursion. -/
def searchWindow : List Str → Option Cents
  | [] => none
  | ln :: rest =>
    match moneySearch ln with
    | some tok =>
      match parse_money_to_float tok with
      | some v => some v
      | none => searchWindow rest
    | none => searchWindow rest

/-- Same-line-first price search of the implicit pass
(check_prices.py:99-112): the first monetary token of the current line
if it parses, else the window over the following lines. -/
def implicitPrice (cur : Str) (after : List Str) : Option Cents :=
  match moneySearch cur with
  | some tok =>
    match parse_money_to_float tok with
    | some v => some v
    | none => searchWindow after
  | none => searchWindow after

/-- Python `d.get(k)` on an insertion-ordered dict. -/
def lookupPM : PriceMap → Str → Option Cents
  | [], _ => none
  | (k, v) :: rest, key => if k = key then some v else lookupPM rest key

/-- Python `d[k] = v` on a dict that already has `k` (else append at the end). -/
def setPM : PriceMap → Str → Cents → PriceMap
  | [], k, v => [(k, v)]
  | (k0, v0) :: rest, k, v =>
    if k0 = k then (k0, v) :: rest else (k0, v0) :: setPM rest k v

/-- The merge step `if sec not in results or price_val < results[sec]:
results[sec] = price_val` (check_prices.py:89-90, 114-115, 240-241). -/
def updateMin (m : PriceMap) (kv : Str × Cents) : PriceMap :=
  match lookupPM m kv.1 with
  | none => m ++ [kv]
  | some old => if kv.2 < old then setPM m kv.1 kv.2 else m

/-- The observations of the explicit pass (check_prices.py:73-90), in
line order: one `(canonical name, price)` pair for every line that
matches the explicit header pattern and whose 4-line lookahead window
yields a parsing monetary token.  The input pairs each stripped line
with its normalized (whitespace-collapsed, upper-cased) form; the
window reads the *stripped* lines, as the script does. -/
def explicitObsGo : List (Str × Str) → List (Str × Cents)
  | [] => []
  | (_, nm) :: rest =>
    let tail := explicitObsGo rest
    match matchExplicitLine nm with
    | none => tail
    | some g2 =>
      match searchWindow ((rest.map Prod.fst).take 4) with
      | none => tail
      | some v => (normalize_section_name (pyStrip g2), v) :: tail

/-- The observations of the implicit pass (check_prices.py:94-115), in
line order: one pair for every line whose normalized form starts with a
vocabulary prefix, priced same-line-first. -/
def implicitObsGo : List (Str × Str) → List (Str × Cents)
  | [] => []
  | (ln, nm) :: rest =>
    let tail := implicitObsGo rest
    if matchImplicitVocab nm then
      match implicitPrice ln ((rest.map Prod.fst).take 4) with
      | none => tail
      | some v => (normalize_section_name ln, v) :: tail
    else tail

/-- The stripped, non-blank lines of the text (check_prices.py:68). -/
def visibleLines (text : Str) : List Str :=
  ((pySplitlines text).map pyStrip).filter (fun ln => ln ≠ [])

/-- Each visible line paired with its normalized form
(check_prices.py:70). -/
def linePairs (text : Str) : List (Str × Str) :=
  (visibleLines text).map (fun ln => (ln, pyUpper (collapseWs ln)))

/-- All price observations of `extract_from_text_blocks`, in the order
the script applies them to its `results` dict: the whole explicit pass,
then the whole implicit pass. -/
def textObs (text : Str) : List (Str × Cents) :=
  explicitObsGo (linePairs text) ++ implicitObsGo (linePairs text)

/-- The function `extract_from_text_blocks` (check_prices.py:62-117): both loops
update the `results` dict through the min-merge step, which is the left
fold of `updateMin` over the observation sequence. -/
def extract_from_text_blocks (text : Str) : PriceMap :=
  (textObs text).foldl updateMin []

/-- The combination step of `fetch_sections_prices`
(check_prices.py:233-241): `results.update(a)` on an empty dict is `a`
itself, and the loop over `b` is the same min-merge fold. -/
def combineResults (a b : PriceMap) : PriceMap :=
  b.foldl updateMin a

/-- Strict lexicographic comparison of strings by code point: Python's
`<` on `str`, used by `sorted`. -/
def lexLt : Str → Str → Bool
  | _, [] => false
  | [], _ :: _ => true
  | a :: as, b :: bs => if a < b then true else if b < a then false else lexLt as bs

/-- Insert a key into a list sorted by `lexLt`. -/
def insSorted (x : Str) : List Str → List Str
  | [] => [x]
  | y :: ys => if lexLt y x then y :: insSorted x ys else x :: y :: ys

/-- Insertion sort by `lexLt` (Python's `sorted` on strings). -/
def sortKeys (l : List Str) : List Str := l.foldr insSorted []

/-- Python `sorted(set(old.keys()) | set(new.keys()))` (check_prices.py:249). -/
def allSections (old new : PriceMap) : List Str :=
  sortKeys ((old.map Prod.fst ++ new.map Prod.fst).dedup)

/-- Decimal digit character of a value below ten. -/
def digitChar (n : ℕ) : Char := Char.ofNat (48 + n)

/-- Worker for `natToChars` (the first argument is fuel, always
sufficient because a number needs at most as many digits as its size). -/
def natToCharsGo : ℕ → ℕ → Str → Str
  | _, 0, acc => acc
  | n, fuel + 1, acc =>
    if n < 10 then digitChar n :: acc
    else natToCharsGo (n / 10) fuel (digitChar (n % 10) :: acc)

/-- Decimal digits of a natural number. -/
def natToChars (n : ℕ) : Str := natToCharsGo n (n + 1) []

/-- Two-digit zero-padded rendering of a value below one hundred. -/
def pad2 (n : ℕ) : Str := if n < 10 then '0' :: natToChars n else natToChars n

/-- Python's `f"{v:.2f}"` on a two-decimal price given in cents. -/
def fmt2f (v : Cents) : Str := natToChars (v / 100) ++ '.' :: pad2 (v % 100)

/-- The `ups` entry `f"• {sec}: {ov:.2f} → {nv:.2f} (+{nv-ov:.2f})"`
(check_prices.py:259). -/
def upEntry (k : Str) (ov nv : Cents) : Str :=
  "• ".data ++ k ++ ": ".data ++ fmt2f ov ++ " → ".data ++ fmt2f nv ++
    " (+".data ++ fmt2f (nv - ov) ++ ")".data

/-- The `downs` entry `f"• {sec}: {ov:.2f} → {nv:.2f} (−{ov-nv:.2f})"`
(check_prices.py:261). -/
def downEntry (k : Str) (ov nv : Cents) : Str :=
  "• ".data ++ k ++ ": ".data ++ fmt2f ov ++ " → ".data ++ fmt2f nv ++
    " (−".data ++ fmt2f (ov - nv) ++ ")".data

/-- The appeared entry `f"• {sec}: nuevo {nv:.2f}"`
(check_prices.py:254). -/
def newEntry (k : Str) (nv : Cents) : Str :=
  "• ".data ++ k ++ ": nuevo ".data ++ fmt2f nv

/-- The disappeared entry
`f"• {sec}: sin disponibilidad (antes {ov:.2f})"` (check_prices.py:256). -/
def goneEntry (k : Str) (ov : Cents) : Str :=
  "• ".data ++ k ++ ": sin disponibilidad (antes ".data ++ fmt2f ov ++ ")".data

/-- The classification loop of `diff_prices` (check_prices.py:250-261),
processing the sorted key list; the script appends to `ups`, `downs`,
`others` while walking the keys in ascending order, which is this
recursion (the entry of the current key precedes the entries of the
later keys in its list). -/
def diffGo (old new : PriceMap) : List Str → List Str × List Str × List Str
  | [] => ([], [], [])
  | k :: rest =>
    let t := diffGo old new rest
    match lookupPM old k, lookupPM new k with
    | none, some nv => (t.1, t.2.1, newEntry k nv :: t.2.2)
    | some ov, none => (t.1, t.2.1, goneEntry k ov :: t.2.2)
    | some ov, some nv =>
      if nv > ov then (upEntry k ov nv :: t.1, t.2.1, t.2.2)
      else if nv < ov then (t.1, downEntry k ov nv :: t.2.1, t.2.2)
      else (t.1, t.2.1, t.2.2)
    | none, none => (t.1, t.2.1, t.2.2)

/-- The function `diff_prices` (check_prices.py:247-262): returns the three lists
`ups, downs, others`. -/
def diff_prices (old new : PriceMap) : List Str × List Str × List Str :=
  diffGo old new (allSections old new)

/-- Literal (case-sensitive) string containment test used by the
availability model below. -/
def isPre : Str → Str → Bool
  | [], _ => true
  | _ :: _, [] => false
  | a :: as, b :: bs => a = b && isPre as bs

/-- Does `needle` occur as a contiguous substring of the second string? -/
def hasSubstr (needle : Str) : Str → Bool
  | [] => isPre needle []
  | c :: rest => isPre needle (c :: rest) || hasSubstr needle rest

/-- Modelled from the spec: the repository's only source file has no
Availability Classifier (spec §4.4 — availability mode is absent from
`check_prices.py`); the recognized "unavailable" phrases are
represented by a vocabulary checked case-insensitively against the
source. -/
def unavailablePhrases : List Str :=
  ["SOLD OUT".data, "AGOTADO".data, "NO DISPONIBLE".data]

/-- Modelled from the spec: whether the source contains a recognized
"unavailable" phrase (§4.4 rule 1). -/
def hasUnavailablePhrase (text : Str) : Bool :=
  unavailablePhrases.any (fun p => hasSubstr p (pyUpper text))

/-- Modelled from the spec: whether any bare monetary token occurs
anywhere in the source (§4.4 rule 3). -/
def hasBareMoney (text : Str) : Bool := (moneySearch text).isSome

/-- Modelled from the spec: the Availability Classifier of §4.4 —
priority order: unavailable-phrase with no sections ⇒ unavailable;
any extracted section ⇒ available; any bare monetary token ⇒
available; otherwise unavailable.  Returns the flag and the
opportunistic extraction. -/
def classify_availability (text : Str) : Bool × PriceMap :=
  let secs := extract_from_text_blocks text
  if hasUnavailablePhrase text && secs.isEmpty then (false, secs)
  else if !secs.isEmpty then (true, secs)
  else if hasBareMoney text then (true, secs)
  else (false, secs)

/-! ### The min-merge step -/

/-- Combine two optional prices, keeping the smaller when both exist. -/
def optMin : Option Cents → Option Cents → Option Cents
  | none, b => b
  | some x, none => some x
  | some x, some y => some (min x y)

/-- Minimum over the prices a sequence of observations offers for one
key (`none` when the key is never offered). -/
def obsMin : List (Str × Cents) → Str → Option Cents
  | [], _ => none
  | (k0, v0) :: rest, k =>
    if k0 = k then optMin (some v0) (obsMin rest k) else obsMin rest k

/-- Non-strict lexicographic order as a relation (for sortedness
statements). -/
def lexLe (a b : Str) : Prop := lexLt b a = false

/-- The five-way classification of a key by the branch structure of the
diff loop (check_prices.py:250-261); `none` when the key is in neither
map. -/
inductive DiffClass
  | increased
  | decreased
  | appeared
  | disappeared
  | unchanged
deriving DecidableEq

/-- Classify one key against the two maps, following the `if`/`elif`
chain of `diff_prices` exactly. -/
def classify (old new : PriceMap) (k : Str) : Option DiffClass :=
  match lookupPM old k, lookupPM new k with
  | none, none => none
  | none, some _ => some DiffClass.appeared
  | some _, none => some DiffClass.disappeared
  | some ov, some nv =>
    if nv > ov then some DiffClass.increased
    else if nv < ov then some DiffClass.decreased
    else some DiffClass.unchanged

/-- The rendered report entry of one key (empty for unchanged or absent
keys, which produce no entry). -/
def entryFor (old new : PriceMap) (k : Str) : Str :=
  match lookupPM old k, lookupPM new k with
  | none, none => []
  | none, some nv => newEntry k nv
  | some ov, none => goneEntry k ov
  | some ov, some nv =>
    if nv > ov then upEntry k ov nv
    else if nv < ov then downEntry k ov nv
    else []

/-- The magnitude the spec attaches to a classified key: the new price
for appeared, the old price for disappeared, the absolute delta for
increased/decreased, zero for unchanged. -/
def diffMag (old new : PriceMap) (k : Str) : Option Cents :=
  match lookupPM old k, lookupPM new k with
  | none, none => none
  | none, some nv => some nv
  | some ov, none => some ov
  | some ov, some nv =>
    if nv > ov then some (nv - ov)
    else if nv < ov then some (ov - nv)
    else some 0

/-- The bucket exchange of the symmetry property:
increased↔decreased, appeared↔disappeared. -/
def swapClass : DiffClass → DiffClass
  | DiffClass.increased => DiffClass.decreased
  | DiffClass.decreased => DiffClass.increased
  | DiffClass.appeared => DiffClass.disappeared
  | DiffClass.disappeared => DiffClass.appeared
  | DiffClass.unchanged => DiffClass.unchanged

/-- The explicit pass in index form, following the spec's wording
(§4.3 step 1): for every line `i` whose normalized form matches the
whole-line "section-introducer + label" pattern, canonicalize the label
and search forward up to 4 subsequent lines for the first monetary
token that parses; record the pair when one is found. -/
def explicitPassSpec (lz : List (Str × Str)) : List (Str × Cents) :=
  (List.range lz.length).filterMap fun i =>
    match lz[i]? with
    | none => none
    | some (_, nm) =>
      (matchExplicitLine nm).bind fun g2 =>
        (searchWindow (((lz.map Prod.fst).drop (i + 1)).take 4)).map fun v =>
          (normalize_section_name (pyStrip g2), v)

/-- Head of the string is not whitespace (vacuously true when empty). -/
def noHeadWs : Str → Bool
  | [] => true
  | c :: _ => !isPySpace c

/-- The canonical whitespace shape produced by `collapseWs`: every
whitespace character is a plain space and no two are adjacent. -/
def wsOk : Str → Bool
  | [] => true
  | [c] => !isPySpace c || c = ' '
  | c :: d :: rest => (!isPySpace c || (c = ' ' && !isPySpace d)) && wsOk (d :: rest)

theorem optMin_assoc (a b c : Option Cents) :
    optMin (optMin a b) c = optMin a (optMin b c) := by
  cases a <;> cases b <;> cases c <;> simp [optMin, Nat.min_assoc]

theorem lookupPM_setPM (m : PriceMap) (k0 k : Str) (v : Cents) :
    lookupPM (setPM m k0 v) k = if k0 = k then some v else lookupPM m k := by
  induction m with
  | nil => by_cases h : k0 = k <;> simp [setPM, lookupPM, h]
  | cons p rest ih =>
    obtain ⟨k1, v1⟩ := p
    by_cases h1 : k1 = k0
    · subst h1
      by_cases h2 : k1 = k <;> simp [setPM, lookupPM, h2]
    · by_cases h2 : k1 = k
      · subst h2
        have : k0 ≠ k1 := fun h => h1 h.symm
        simp [setPM, lookupPM, h1, this]
      · simp [setPM, lookupPM, h1, h2, ih]

theorem lookupPM_append (m l : PriceMap) (k : Str) :
    lookupPM (m ++ l) k =
      match lookupPM m k with
      | some v => some v
      | none => lookupPM l k := by
  induction m with
  | nil => simp [lookupPM]
  | cons p rest ih =>
    obtain ⟨k1, v1⟩ := p
    by_cases h : k1 = k <;> simp [lookupPM, h, ih]

theorem lookupPM_updateMin (m : PriceMap) (kv : Str × Cents) (k : Str) :
    lookupPM (updateMin m kv) k =
      if kv.1 = k then optMin (lookupPM m k) (some kv.2) else lookupPM m k := by
  obtain ⟨k0, v0⟩ := kv
  by_cases h : k0 = k
  · subst h
    cases hl : lookupPM m k0 with
    | none => simp [updateMin, hl, lookupPM_append, optMin, lookupPM]
    | some old =>
      by_cases hlt : v0 < old
      · simp [updateMin, hl, hlt, lookupPM_setPM, optMin, Nat.min_comm,
          Nat.min_eq_left (Nat.le_of_lt hlt)]
      · have : min old v0 = old := Nat.min_eq_left (Nat.le_of_not_lt hlt)
        simp [updateMin, hl, hlt, optMin, this]
  · cases hl : lookupPM m k0 with
    | none =>
      simp only [updateMin, hl]
      rw [lookupPM_append]
      cases hk : lookupPM m k with
      | none => simp [lookupPM, h, hk]
      | some v => simp [h, hk]
    | some old =>
      by_cases hlt : v0 < old <;> simp [updateMin, hl, hlt, lookupPM_setPM, h]

theorem lookupPM_foldl_updateMin (obs : List (Str × Cents)) (m : PriceMap) (k : Str) :
    lookupPM (obs.foldl updateMin m) k = optMin (lookupPM m k) (obsMin obs k) := by
  induction obs generalizing m with
  | nil => cases h : lookupPM m k <;> simp [obsMin, optMin, h]
  | cons kv rest ih =>
    obtain ⟨k0, v0⟩ := kv
    by_cases h : k0 = k
    · subst h
      rw [List.foldl_cons, ih, lookupPM_updateMin]
      simp only [if_pos rfl, obsMin]
      exact optMin_assoc _ _ _
    · simp [List.foldl_cons, ih, lookupPM_updateMin, obsMin, h]

theorem obsMin_cons_eq (k0 : Str) (v0 : Cents) (rest : List (Str × Cents)) (k : Str) :
    obsMin ((k0, v0) :: rest) k =
      if k0 = k then optMin (some v0) (obsMin rest k) else obsMin rest k := rfl

theorem obsMin_none_iff (obs : List (Str × Cents)) (k : Str) :
    obsMin obs k = none ↔ ∀ v, (k, v) ∉ obs := by
  induction obs with
  | nil => simp [obsMin]
  | cons kv rest ih =>
    obtain ⟨k0, v0⟩ := kv
    rw [obsMin_cons_eq]
    by_cases h : k0 = k
    · subst h
      rw [if_pos rfl]
      constructor
      · intro hm
        cases ho : obsMin rest k0 <;> rw [ho] at hm <;> simp [optMin] at hm
      · intro hall
        exact absurd (List.mem_cons_self _ _) (hall v0)
    · rw [if_neg h, ih]
      constructor
      · intro hall v
        simp only [List.mem_cons]
        rintro (he | hm)
        · exact h (by injection he with h1 _; exact h1.symm)
        · exact hall v hm
      · intro hall v hm
        exact hall v (List.mem_cons_of_mem _ hm)

theorem obsMin_mem (obs : List (Str × Cents)) (k : Str) (v : Cents)
    (h : obsMin obs k = some v) : (k, v) ∈ obs := by
  induction obs generalizing v with
  | nil => simp [obsMin] at h
  | cons kv rest ih =>
    obtain ⟨k0, v0⟩ := kv
    rw [obsMin_cons_eq] at h
    by_cases hk : k0 = k
    · subst hk
      rw [if_pos rfl] at h
      cases ho : obsMin rest k0 with
      | none =>
        rw [ho] at h
        simp only [optMin, Option.some.injEq] at h
        simp [h]
      | some m =>
        rw [ho] at h
        simp only [optMin, Option.some.injEq] at h
        rcases min_choice v0 m with hc | hc
        · rw [hc] at h; simp [h]
        · rw [hc] at h; subst h; exact List.mem_cons_of_mem _ (ih m ho)
    · rw [if_neg hk] at h
      exact List.mem_cons_of_mem _ (ih v h)

theorem obsMin_le (obs : List (Str × Cents)) (k : Str) (v : Cents)
    (h : obsMin obs k = some v) : ∀ w, (k, w) ∈ obs → v ≤ w := by
  induction obs generalizing v with
  | nil => simp
  | cons kv rest ih =>
    obtain ⟨k0, v0⟩ := kv
    intro w hw
    rw [obsMin_cons_eq] at h
    by_cases hk : k0 = k
    · subst hk
      rw [if_pos rfl] at h
      rcases List.mem_cons.1 hw with he | hm
      · injection he with h1 h2
        subst h2
        cases ho : obsMin rest k0 with
        | none =>
          rw [ho] at h
          simp only [optMin, Option.some.injEq] at h
          exact le_of_eq h.symm
        | some m =>
          rw [ho] at h; simp only [optMin, Option.some.injEq] at h
          subst h; exact Nat.min_le_left _ _
      · cases ho : obsMin rest k0 with
        | none =>
          exact absurd hm ((obsMin_none_iff rest k0).1 ho w)
        | some m =>
          rw [ho] at h; simp only [optMin, Option.some.injEq] at h
          subst h
          exact le_trans (Nat.min_le_right _ _) (ih m ho w hm)
    · rw [if_neg hk] at h
      rcases List.mem_cons.1 hw with he | hm
      · exact absurd (by injection he with h1 _; exact h1.symm) hk
      · exact ih v h w hm

theorem obsMin_eq_some_iff (obs : List (Str × Cents)) (k : Str) (v : Cents) :
    obsMin obs k = some v ↔ ((k, v) ∈ obs ∧ ∀ w, (k, w) ∈ obs → v ≤ w) := by
  constructor
  · intro h
    exact ⟨obsMin_mem obs k v h, obsMin_le obs k v h⟩
  · rintro ⟨hmem, hmin⟩
    cases ho : obsMin obs k with
    | none => exact absurd hmem ((obsMin_none_iff obs k).1 ho v)
    | some m =>
      have h1 : m ≤ v := obsMin_le obs k m ho v hmem
      have h2 : v ≤ m := hmin m (obsMin_mem obs k m ho)
      rw [le_antisymm h1 h2]

theorem lookupPM_extract (text : Str) (k : Str) :
    lookupPM (extract_from_text_blocks text) k = obsMin (textObs text) k := by
  unfold extract_from_text_blocks
  rw [lookupPM_foldl_updateMin]
  simp [lookupPM, optMin]

theorem lookupPM_combineResults (a b : PriceMap) (k : Str) :
    lookupPM (combineResults a b) k = optMin (lookupPM a k) (obsMin b k) := by
  unfold combineResults
  exact lookupPM_foldl_updateMin b a k

theorem obsMin_isSome_iff (obs : List (Str × Cents)) (k : Str) :
    (obsMin obs k).isSome ↔ ∃ v, (k, v) ∈ obs := by
  cases ho : obsMin obs k with
  | none =>
    simp only [Option.isSome_none, Bool.false_eq_true, false_iff]
    push_neg
    exact fun v => (obsMin_none_iff obs k).1 ho v
  | some m =>
    simp only [Option.isSome_some, true_iff]
    exact ⟨m, obsMin_mem obs k m ho⟩

theorem searchWindow_parse (w : List Str) (v : Cents)
    (h : searchWindow w = some v) : ∃ tok, parse_money_to_float tok = some v := by
  induction w with
  | nil => simp [searchWindow] at h
  | cons ln rest ih =>
    simp only [searchWindow] at h
    split at h
    · split at h
      · next u hp =>
        exact ⟨_, hp.trans (congrArg some (Option.some.inj h))⟩
      · exact ih h
    · exact ih h

theorem implicitPrice_parse (cur : Str) (after : List Str) (v : Cents)
    (h : implicitPrice cur after = some v) :
    ∃ tok, parse_money_to_float tok = some v := by
  simp only [implicitPrice] at h
  split at h
  · split at h
    · next u hp =>
      exact ⟨_, hp.trans (congrArg some (Option.some.inj h))⟩
    · exact searchWindow_parse _ _ h
  · exact searchWindow_parse _ _ h

theorem explicitObsGo_parse (lz : List (Str × Str)) (k : Str) (v : Cents)
    (h : (k, v) ∈ explicitObsGo lz) : ∃ tok, parse_money_to_float tok = some v := by
  induction lz with
  | nil => simp [explicitObsGo] at h
  | cons p rest ih =>
    obtain ⟨ln, nm⟩ := p
    simp only [explicitObsGo] at h
    split at h
    · exact ih h
    · split at h
      · exact ih h
      · next u hw =>
        rcases List.mem_cons.1 h with he | hm2
        · have hv : v = u := by injection he
          exact searchWindow_parse _ _ (by rw [hw, hv])
        · exact ih hm2

theorem implicitObsGo_parse (lz : List (Str × Str)) (k : Str) (v : Cents)
    (h : (k, v) ∈ implicitObsGo lz) : ∃ tok, parse_money_to_float tok = some v := by
  induction lz with
  | nil => simp [implicitObsGo] at h
  | cons p rest ih =>
    obtain ⟨ln, nm⟩ := p
    simp only [implicitObsGo] at h
    split at h
    · split at h
      · exact ih h
      · next u hp =>
        rcases List.mem_cons.1 h with he | hm2
        · have hv : v = u := by injection he
          exact implicitPrice_parse _ _ _ (by rw [hp, hv])
        · exact ih hm2
    · exact ih h

theorem textObs_parse (text : Str) (k : Str) (v : Cents)
    (h : (k, v) ∈ textObs text) : ∃ tok, parse_money_to_float tok = some v := by
  rcases List.mem_append.1 h with h1 | h2
  · exact explicitObsGo_parse _ _ _ h1
  · exact implicitObsGo_parse _ _ _ h2

/-- C2: the Extractor's merge step keeps the minimum price per key —
within `extract_from_text_blocks` (the fold of the min-update over the
sequence of observations of both passes) and across the text pass and
the markup pass (the combination loop of `fetch_sections_prices`); in
particular two sources `{"A": 200.00}` and `{"A": 150.00}` merge to
`{"A": 150.00}`. -/
theorem extractor_min_price_merge :
    (∀ (obs : List (Str × Cents)) (m0 : PriceMap) (k : Str),
        lookupPM (obs.foldl updateMin m0) k = optMin (lookupPM m0 k) (obsMin obs k)) ∧
    (∀ (text : Str) (k : Str) (v : Cents),
        lookupPM (extract_from_text_blocks text) k = some v ↔
          ((k, v) ∈ textObs text ∧ ∀ w, (k, w) ∈ textObs text → v ≤ w)) ∧
    (∀ (a b : PriceMap) (k : Str),
        lookupPM (combineResults a b) k = optMin (lookupPM a k) (obsMin b k)) ∧
    combineResults [("A".data, 20000)] [("A".data, 15000)] = [("A".data, 15000)] := by
  refine ⟨lookupPM_foldl_updateMin, ?_, lookupPM_combineResults, by decide⟩
  intro text k v
  rw [lookupPM_extract]
  exact obsMin_eq_some_iff (textObs text) k v

/-- C2 witness: at the raw text of Scenario 3, the stored price of key
`VIP` is offered by an observation and is minimal among all offers. -/
theorem extractor_min_price_merge_witness :
    ("VIP".data, 125000) ∈ textObs "SECTION VIP\n\n$1,250.00\n".data ∧
      ∀ w, ("VIP".data, w) ∈ textObs "SECTION VIP\n\n$1,250.00\n".data → 125000 ≤ w :=
  (extractor_min_price_merge.2.1 "SECTION VIP\n\n$1,250.00\n".data "VIP".data 125000).mp
    (by decide)

/-- C9: a key is present in the extracted SectionPriceMap iff some
observation (built only from successfully parsed monetary tokens)
offers it; every stored value comes from such an observation, and every
observed value is the result of a successful parse; a matched label
whose candidate tokens all fail to parse contributes nothing — in
particular the label `SECTION VIP` followed only by the unparsable
token `$1,234.567.89` yields an empty map, with no zero or null
placeholder. -/
theorem no_placeholder_guarantee :
    (∀ (text : Str) (k : Str),
        (lookupPM (extract_from_text_blocks text) k).isSome ↔
          ∃ v, (k, v) ∈ textObs text) ∧
    (∀ (text : Str) (k : Str) (v : Cents),
        lookupPM (extract_from_text_blocks text) k = some v → (k, v) ∈ textObs text) ∧
    (∀ (text : Str) (k : Str) (v : Cents),
        (k, v) ∈ textObs text → ∃ tok, parse_money_to_float tok = some v) ∧
    extract_from_text_blocks "SECTION VIP\n$1,234.567.89\n".data = [] := by
  refine ⟨?_, ?_, textObs_parse, by decide⟩
  · intro text k
    rw [lookupPM_extract]
    exact obsMin_isSome_iff (textObs text) k
  · intro text k v h
    rw [lookupPM_extract] at h
    exact obsMin_mem _ _ _ h

/-- C9 witness: at the Scenario 3 text the key `VIP` is present, its
stored value is an observation, and that value is a successful parse of
a monetary token. -/
theorem no_placeholder_guarantee_witness :
    ∃ tok, parse_money_to_float tok = some 125000 :=
  no_placeholder_guarantee.2.2.1 "SECTION VIP\n\n$1,250.00\n".data "VIP".data 125000
    (by decide)

/-! ### The sorted key order -/

theorem lexLt_irrefl (a : Str) : lexLt a a = false := by
  induction a with
  | nil => rfl
  | cons x xs ih => simp [lexLt, lt_irrefl, ih]

theorem lexLt_trans (a : Str) :
    ∀ b c, lexLt a b = true → lexLt b c = true → lexLt a c = true := by
  induction a with
  | nil =>
    intro b c hab hbc
    cases b with
    | nil => simp [lexLt] at hab
    | cons y ys =>
      cases c with
      | nil => simp [lexLt] at hbc
      | cons z zs => simp [lexLt]
  | cons x xs ih =>
    intro b c hab hbc
    cases b with
    | nil => simp [lexLt] at hab
    | cons y ys =>
      cases c with
      | nil => simp [lexLt] at hbc
      | cons z zs =>
        simp only [lexLt] at hab hbc ⊢
        rcases lt_trichotomy x y with h1 | h1 | h1
        · rcases lt_trichotomy y z with h2 | h2 | h2
          · simp [lt_trans h1 h2]
          · subst h2; simp [h1]
          · rw [if_neg (asymm h2), if_pos h2] at hbc; exact absurd hbc (by simp)
        · subst h1
          rw [if_neg (lt_irrefl x), if_neg (lt_irrefl x)] at hab
          rcases lt_trichotomy x z with h2 | h2 | h2
          · simp [h2]
          · subst h2
            rw [if_neg (lt_irrefl x), if_neg (lt_irrefl x)] at hbc
            simp [lt_irrefl, ih ys zs hab hbc]
          · rw [if_neg (asymm h2), if_pos h2] at hbc; exact absurd hbc (by simp)
        · rw [if_neg (asymm h1), if_pos h1] at hab; exact absurd hab (by simp)

theorem lexLt_asymm (a b : Str) (h : lexLt a b = true) : lexLt b a = false := by
  cases hba : lexLt b a with
  | false => rfl
  | true => exact absurd (lexLt_trans a b a h hba) (by simp [lexLt_irrefl])

theorem lexLt_connex (a : Str) :
    ∀ b, lexLt a b = false → lexLt b a = false → a = b := by
  induction a with
  | nil =>
    intro b hab _
    cases b with
    | nil => rfl
    | cons y ys => simp [lexLt] at hab
  | cons x xs ih =>
    intro b hab hba
    cases b with
    | nil => simp [lexLt] at hba
    | cons y ys =>
      simp only [lexLt] at hab hba
      rcases lt_trichotomy x y with h1 | h1 | h1
      · rw [if_pos h1] at hab; exact absurd hab (by simp)
      · subst h1
        rw [if_neg (lt_irrefl x), if_neg (lt_irrefl x)] at hab hba
        rw [ih ys hab hba]
      · rw [if_pos h1] at hba; exact absurd hba (by simp)

instance : IsAntisymm Str lexLe :=
  ⟨fun a b h1 h2 => lexLt_connex a b h2 h1⟩

instance : IsTrans Str lexLe := by
  refine ⟨fun a b c h1 h2 => ?_⟩
  unfold lexLe at *
  cases hca : lexLt c a with
  | false => rfl
  | true =>
    by_cases hbc : lexLt b c = true
    · by_cases hba : lexLt b a = true
      · rw [hba] at h1; exact absurd h1 (by simp)
      · exact absurd (lexLt_trans b c a hbc hca) hba
    · have hb : b = c := lexLt_connex b c (by simpa using hbc) h2
      subst hb
      rw [hca] at h1
      exact absurd h1 (by simp)

instance : IsTotal Str lexLe := by
  refine ⟨fun a b => ?_⟩
  cases h : lexLt b a with
  | false => exact Or.inl h
  | true => exact Or.inr (lexLt_asymm b a h)

theorem insSorted_perm (x : Str) (l : List Str) : (insSorted x l).Perm (x :: l) := by
  induction l with
  | nil => exact List.Perm.refl _
  | cons y ys ih =>
    simp only [insSorted]
    by_cases h : lexLt y x = true
    · rw [if_pos h]
      exact (ih.cons y).trans (List.Perm.swap x y ys)
    · rw [if_neg h]

theorem sortKeys_perm (l : List Str) : (sortKeys l).Perm l := by
  induction l with
  | nil => exact List.Perm.refl _
  | cons x xs ih =>
    have : sortKeys (x :: xs) = insSorted x (sortKeys xs) := rfl
    rw [this]
    exact (insSorted_perm x (sortKeys xs)).trans (ih.cons x)

theorem insSorted_pairwise (x : Str) (l : List Str) (h : l.Pairwise lexLe) :
    (insSorted x l).Pairwise lexLe := by
  induction l with
  | nil => simp [insSorted]
  | cons y ys ih =>
    rcases List.pairwise_cons.1 h with ⟨hy, hys⟩
    simp only [insSorted]
    by_cases hlt : lexLt y x = true
    · rw [if_pos hlt]
      refine List.pairwise_cons.2 ⟨?_, ih hys⟩
      intro z hz
      have hz' := (insSorted_perm x ys).mem_iff.1 hz
      rcases List.mem_cons.1 hz' with rfl | hzys
      · exact lexLt_asymm y z hlt
      · exact hy z hzys
    · rw [if_neg hlt]
      refine List.pairwise_cons.2 ⟨?_, h⟩
      intro z hz
      have hxy : lexLe x y := by
        unfold lexLe
        simpa using hlt
      rcases List.mem_cons.1 hz with rfl | hzys
      · exact hxy
      · exact Trans.trans hxy (hy z hzys)

theorem sortKeys_pairwise (l : List Str) : (sortKeys l).Pairwise lexLe := by
  induction l with
  | nil => simp [sortKeys]
  | cons x xs ih => exact insSorted_pairwise x (sortKeys xs) ih

theorem lookupPM_isSome_iff (m : PriceMap) (k : Str) :
    (lookupPM m k).isSome ↔ k ∈ m.map Prod.fst := by
  induction m with
  | nil => simp [lookupPM]
  | cons p rest ih =>
    obtain ⟨k0, v0⟩ := p
    by_cases h : k0 = k
    · subst h
      simp [lookupPM]
    · simp only [lookupPM, if_neg h, List.map_cons, List.mem_cons, ih]
      constructor
      · exact Or.inr
      · rintro (he | hm)
        · exact absurd he.symm h
        · exact hm

theorem mem_allSections (old new : PriceMap) (k : Str) :
    k ∈ allSections old new ↔
      ((lookupPM old k).isSome ∨ (lookupPM new k).isSome) := by
  unfold allSections
  rw [(sortKeys_perm _).mem_iff]
  simp [List.mem_dedup, lookupPM_isSome_iff]

theorem allSections_nodup (old new : PriceMap) : (allSections old new).Nodup :=
  (sortKeys_perm _).nodup_iff.2 (List.nodup_dedup _)

theorem allSections_pairwise (old new : PriceMap) :
    (allSections old new).Pairwise lexLe :=
  sortKeys_pairwise _

theorem allSections_sorted_strict (old new : PriceMap) :
    (allSections old new).Pairwise (fun a b => lexLt a b = true) := by
  have h1 := allSections_pairwise old new
  have h2 := allSections_nodup old new
  refine (h1.and h2).imp ?_
  rintro a b ⟨hle, hne⟩
  cases hab : lexLt a b with
  | true => rfl
  | false => exact absurd (lexLt_connex a b hab hle) hne

theorem allSections_swap (old new : PriceMap) :
    allSections new old = allSections old new := by
  refine List.eq_of_perm_of_sorted ?_ (allSections_pairwise new old)
    (allSections_pairwise old new)
  refine (List.perm_ext_iff_of_nodup (allSections_nodup new old)
    (allSections_nodup old new)).2 ?_
  intro k
  rw [mem_allSections, mem_allSections]
  exact or_comm

theorem diffGo_eq (old new : PriceMap) (ks : List Str) :
    diffGo old new ks =
      ((ks.filter (fun k =>
          classify old new k = some DiffClass.increased)).map (entryFor old new),
       (ks.filter (fun k =>
          classify old new k = some DiffClass.decreased)).map (entryFor old new),
       (ks.filter (fun k =>
          classify old new k = some DiffClass.appeared ∨
          classify old new k = some DiffClass.disappeared)).map (entryFor old new)) := by
  induction ks with
  | nil => simp [diffGo]
  | cons k rest ih =>
    simp only [diffGo, ih]
    cases ho : lookupPM old k <;> cases hn : lookupPM new k
    · simp [classify, entryFor, ho, hn, List.filter_cons]
    · simp [classify, entryFor, ho, hn, List.filter_cons]
    · simp [classify, entryFor, ho, hn, List.filter_cons]
    case some.some ov nv =>
      by_cases h1 : nv > ov
      · simp [classify, entryFor, ho, hn, h1, List.filter_cons]
      · by_cases h2 : nv < ov <;>
          simp [classify, entryFor, ho, hn, h1, h2, List.filter_cons]

theorem classify_isSome (old new : PriceMap) (k : Str)
    (h : (lookupPM old k).isSome ∨ (lookupPM new k).isSome) :
    (classify old new k).isSome := by
  unfold classify
  cases ho : lookupPM old k <;> cases hn : lookupPM new k
  · rw [ho, hn] at h; simp at h
  · simp
  · simp
  case some.some ov nv =>
    by_cases h1 : nv > ov
    · simp [h1]
    · by_cases h2 : nv < ov <;> simp [h1, h2]

/-- C3: for all maps `old` and `new`, the diff walks the union of keys
in strictly increasing lexicographic order; the walked list is exactly
the union; every walked key gets exactly one classification (increased,
decreased, appeared, disappeared, or unchanged); and the three output
lists of `diff_prices` are precisely the classified keys' entries, in
that order — no key omitted, none duplicated across buckets. -/
theorem diff_engine_completeness (old new : PriceMap) :
    (allSections old new).Pairwise (fun a b => lexLt a b = true) ∧
    (allSections old new).Nodup ∧
    (∀ k, k ∈ allSections old new ↔
        ((lookupPM old k).isSome ∨ (lookupPM new k).isSome)) ∧
    (∀ k, k ∈ allSections old new → ∃! c : DiffClass, classify old new k = some c) ∧
    diff_prices old new =
      (((allSections old new).filter (fun k =>
          classify old new k = some DiffClass.increased)).map (entryFor old new),
       ((allSections old new).filter (fun k =>
          classify old new k = some DiffClass.decreased)).map (entryFor old new),
       ((allSections old new).filter (fun k =>
          classify old new k = some DiffClass.appeared ∨
          classify old new k = some DiffClass.disappeared)).map (entryFor old new)) := by
  refine ⟨allSections_sorted_strict old new, allSections_nodup old new,
    mem_allSections old new, ?_, diffGo_eq old new (allSections old new)⟩
  intro k hk
  have h := classify_isSome old new k ((mem_allSections old new k).1 hk)
  cases hc : classify old new k with
  | none => rw [hc] at h; simp at h
  | some c => exact ⟨c, rfl, fun y hy => (Option.some.inj hy).symm⟩

/-- C3 witness: with `old = {"A": 100.00}` and
`new = {"A": 120.00, "B": 50.00}`, the key `A` lies in the walked union
and receives exactly one classification. -/
theorem diff_engine_completeness_witness :
    ∃! c : DiffClass,
      classify [("A".data, 10000)] [("A".data, 12000), ("B".data, 5000)] "A".data =
        some c :=
  (diff_engine_completeness [("A".data, 10000)]
    [("A".data, 12000), ("B".data, 5000)]).2.2.2.1 "A".data (by decide)

/-- C4 counterexample: the diff output has no separate appeared and
disappeared lists — with `old = {"A": 1.00}` and `new = {"B": 2.00}`
the single third list (`others`) carries both the disappeared entry of
`A` and the appeared entry of `B`, so the output does not consist of
four lists with appeared and disappeared apart. -/
theorem diff_engine_four_lists_cex :
    ((diff_prices [("A".data, 100)] [("B".data, 200)]).2.2.any
        (fun e => hasSubstr ": nuevo ".data e) = true) ∧
    ((diff_prices [("A".data, 100)] [("B".data, 200)]).2.2.any
        (fun e => hasSubstr ": sin disponibilidad".data e) = true) ∧
    diff_prices [("A".data, 100)] [("B".data, 200)] =
      ([], [],
       ["• A: sin disponibilidad (antes 1.00)".data, "• B: nuevo 2.00".data]) :=
  ⟨by decide, by decide, by decide⟩

/-- C4 (amended): the Diff Engine's output consists of three ordered
lists — increased, decreased, and a combined `others` list — and of
exactly these entries: each list equals the map of the entry formatter
over the matching classified keys of the sorted union, each of the
three key lists is strictly sorted (so `others` interleaves appeared
and disappeared entries in sorted key order), an increased or
decreased entry carries the key, both prices and the delta, an
appeared entry the key and new price, a disappeared entry the key
and old price. -/
theorem diff_engine_three_lists (old new : PriceMap) :
    diff_prices old new =
      (((allSections old new).filter (fun k =>
          classify old new k = some DiffClass.increased)).map (entryFor old new),
       ((allSections old new).filter (fun k =>
          classify old new k = some DiffClass.decreased)).map (entryFor old new),
       ((allSections old new).filter (fun k =>
          classify old new k = some DiffClass.appeared ∨
          classify old new k = some DiffClass.disappeared)).map
         (entryFor old new)) ∧
    ((allSections old new).filter (fun k =>
        classify old new k = some DiffClass.increased)).Pairwise
      (fun a b => lexLt a b = true) ∧
    ((allSections old new).filter (fun k =>
        classify old new k = some DiffClass.decreased)).Pairwise
      (fun a b => lexLt a b = true) ∧
    ((allSections old new).filter (fun k =>
        classify old new k = some DiffClass.appeared ∨
        classify old new k = some DiffClass.disappeared)).Pairwise
      (fun a b => lexLt a b = true) ∧
    (∀ k ov nv, lookupPM old k = some ov → lookupPM new k = some nv → nv > ov →
        classify old new k = some DiffClass.increased ∧
        entryFor old new k = upEntry k ov nv) ∧
    (∀ k ov nv, lookupPM old k = some ov → lookupPM new k = some nv → nv < ov →
        classify old new k = some DiffClass.decreased ∧
        entryFor old new k = downEntry k ov nv) ∧
    (∀ k nv, lookupPM old k = none → lookupPM new k = some nv →
        classify old new k = some DiffClass.appeared ∧
        entryFor old new k = newEntry k nv) ∧
    (∀ k ov, lookupPM old k = some ov → lookupPM new k = none →
        classify old new k = some DiffClass.disappeared ∧
        entryFor old new k = goneEntry k ov) := by
  refine ⟨diffGo_eq old new (allSections old new), ?_, ?_, ?_, ?_, ?_, ?_, ?_⟩
  · exact List.Pairwise.sublist (List.filter_sublist _)
      (allSections_sorted_strict old new)
  · exact List.Pairwise.sublist (List.filter_sublist _)
      (allSections_sorted_strict old new)
  · exact List.Pairwise.sublist (List.filter_sublist _)
      (allSections_sorted_strict old new)
  · intro k ov nv ho hn hlt
    exact ⟨by simp [classify, ho, hn, hlt], by simp [entryFor, ho, hn, hlt]⟩
  · intro k ov nv ho hn hlt
    have hnlt : ¬ nv > ov := lt_asymm hlt
    exact ⟨by simp [classify, ho, hn, hlt, hnlt],
      by simp [entryFor, ho, hn, hlt, hnlt]⟩
  · intro k nv ho hn
    exact ⟨by simp [classify, ho, hn], by simp [entryFor, ho, hn]⟩
  · intro k ov ho hn
    exact ⟨by simp [classify, ho, hn], by simp [entryFor, ho, hn]⟩

/-- C4 witness: Scenario 1 — `old = {"A": 100.00}`,
`new = {"A": 120.00}` classifies `A` as increased, and its entry is
the up-entry carrying the key, both prices and the delta. -/
theorem diff_engine_three_lists_witness :
    classify [("A".data, 10000)] [("A".data, 12000)] "A".data =
        some DiffClass.increased ∧
    entryFor [("A".data, 10000)] [("A".data, 12000)] "A".data =
      upEntry "A".data 10000 12000 :=
  (diff_engine_three_lists [("A".data, 10000)] [("A".data, 12000)]).2.2.2.2.1
    "A".data 10000 12000 (by decide) (by decide) (by decide)

theorem swapClass_swapClass (c : DiffClass) : swapClass (swapClass c) = c := by
  cases c <;> rfl

theorem map_swapClass_eq (o : Option DiffClass) (c : DiffClass) :
    o.map swapClass = some c ↔ o = some (swapClass c) := by
  cases o with
  | none => simp
  | some d =>
    constructor
    · intro h
      have h2 : swapClass d = c := Option.some.inj h
      subst h2
      rw [swapClass_swapClass]
    · intro h
      have h2 : d = swapClass c := Option.some.inj h
      subst h2
      show some (swapClass (swapClass c)) = some c
      rw [swapClass_swapClass]

theorem classify_swap (old new : PriceMap) (k : Str) :
    classify new old k = (classify old new k).map swapClass := by
  unfold classify
  cases ho : lookupPM old k <;> cases hn : lookupPM new k <;> simp [swapClass]
  case some.some ov nv =>
    by_cases h1 : nv > ov
    · simp [h1, lt_asymm h1, swapClass]
    · by_cases h2 : nv < ov
      · simp [h1, h2, swapClass]
      · have h3 : ¬ ov < nv := h1
        have h4 : ¬ nv < ov := h2
        simp [h3, h4, swapClass]

theorem diffMag_swap (old new : PriceMap) (k : Str) :
    diffMag new old k = diffMag old new k := by
  unfold diffMag
  cases ho : lookupPM old k <;> cases hn : lookupPM new k <;> simp
  case some.some ov nv =>
    by_cases h1 : nv > ov
    · simp [h1, lt_asymm h1]
    · by_cases h2 : nv < ov
      · simp [h1, h2]
      · have h3 : nv = ov := le_antisymm (le_of_not_lt h1) (le_of_not_lt h2)
        simp [h1, h2, h3]

/-- C5: swapping the two arguments of `diff_prices` exchanges the
increased and decreased buckets and the appeared and disappeared
classifications, with magnitudes (prices and deltas) preserved: the
classification of each key swaps by `swapClass`, the magnitude of each
key is unchanged, and the output lists of the swapped diff are exactly
the entries of the respectively opposite buckets of the original
orientation. -/
theorem diff_engine_symmetry (old new : PriceMap) :
    (∀ k, classify new old k = (classify old new k).map swapClass) ∧
    (∀ k, diffMag new old k = diffMag old new k) ∧
    ((diff_prices new old).1 = ((allSections old new).filter (fun k =>
        classify old new k = some DiffClass.decreased)).map (entryFor new old)) ∧
    ((diff_prices new old).2.1 = ((allSections old new).filter (fun k =>
        classify old new k = some DiffClass.increased)).map (entryFor new old)) ∧
    ((diff_prices new old).2.2 = ((allSections old new).filter (fun k =>
        classify old new k = some DiffClass.disappeared ∨
        classify old new k = some DiffClass.appeared)).map (entryFor new old)) := by
  have hd := diffGo_eq new old (allSections new old)
  rw [allSections_swap] at hd
  have hdp : diff_prices new old = diffGo new old (allSections new old) := rfl
  rw [allSections_swap] at hdp
  rw [hd] at hdp
  refine ⟨classify_swap old new, diffMag_swap old new, ?_, ?_, ?_⟩
  · rw [hdp]
    refine congrArg (List.map (entryFor new old)) (List.filter_congr ?_)
    intro k _
    apply decide_eq_decide.2
    rw [classify_swap]
    exact map_swapClass_eq _ _
  · rw [hdp]
    refine congrArg (List.map (entryFor new old)) (List.filter_congr ?_)
    intro k _
    apply decide_eq_decide.2
    rw [classify_swap]
    exact map_swapClass_eq _ _
  · rw [hdp]
    refine congrArg (List.map (entryFor new old)) (List.filter_congr ?_)
    intro k _
    apply decide_eq_decide.2
    rw [classify_swap]
    exact or_congr (map_swapClass_eq _ _) (map_swapClass_eq _ _)

/-- C6 (spec-modelled): whenever the source contains a recognized
"unavailable" phrase but the Extractor still yields at least one
section, the Availability Classifier answers `available` — rule 2
overrides rule 1. -/
theorem availability_override (text : Str)
    (hphrase : hasUnavailablePhrase text = true)
    (hsec : extract_from_text_blocks text ≠ []) :
    (classify_availability text).1 = true := by
  unfold classify_availability
  have hempty : (extract_from_text_blocks text).isEmpty = false := by
    cases h : extract_from_text_blocks text
    · exact absurd h hsec
    · rfl
  simp [hphrase, hempty]

/-- C6 witness: a source with a "Sold out" banner and a live section
with a price classifies as available. -/
theorem availability_override_witness :
    hasUnavailablePhrase "Sold out\nSECTION VIP\n\n$1,250.00\n".data = true ∧
      extract_from_text_blocks "Sold out\nSECTION VIP\n\n$1,250.00\n".data ≠ [] ∧
      (classify_availability "Sold out\nSECTION VIP\n\n$1,250.00\n".data).1 = true :=
  ⟨by decide, by decide,
    availability_override "Sold out\nSECTION VIP\n\n$1,250.00\n".data
      (by decide) (by decide)⟩

/-! ### The monetary parser's contract -/

theorem moneyDigits_cons (c : Char) (s : Str) :
    moneyDigits (c :: s) =
      if keepMoneyChar c = true then
        (if c = ',' then moneyDigits s else c :: moneyDigits s)
      else moneyDigits s := by
  by_cases h1 : keepMoneyChar c = true
  · by_cases h2 : c = ','
    · subst h2
      have hk : keepMoneyChar ',' = true := by decide
      simp [moneyDigits, List.filter_cons, hk]
    · simp [moneyDigits, List.filter_cons, h1, h2]
  · simp [moneyDigits, List.filter_cons, h1]

theorem moneyDigits_filter_keep (s : Str) :
    moneyDigits (s.filter keepMoneyChar) = moneyDigits s := by
  induction s with
  | nil => rfl
  | cons c rest ih =>
    by_cases h : keepMoneyChar c = true
    · rw [List.filter_cons, if_pos h, moneyDigits_cons, moneyDigits_cons, ih]
    · rw [List.filter_cons, if_neg (by simpa using h), moneyDigits_cons,
        if_neg (by simpa using h), ih]

theorem moneyDigits_filter_comma (s : Str) :
    moneyDigits (s.filter (fun c => c ≠ ',')) = moneyDigits s := by
  induction s with
  | nil => rfl
  | cons c rest ih =>
    have ih2 : moneyDigits (List.filter (fun c => !decide (c = ',')) rest) =
        moneyDigits rest := by simpa using ih
    by_cases h2 : c = ','
    · subst h2
      have hk : keepMoneyChar ',' = true := by decide
      simp [List.filter_cons, moneyDigits_cons, hk, ih2]
    · simp [List.filter_cons, h2, moneyDigits_cons, ih2]

theorem digitsToNat_append (a b : Str) :
    digitsToNat (a ++ b) = digitsToNat a * 10 ^ b.length + digitsToNat b := by
  have haux : ∀ (l : Str) (init : ℕ),
      l.foldl (fun acc c => 10 * acc + (c.toNat - 48)) init =
        init * 10 ^ l.length + l.foldl (fun acc c => 10 * acc + (c.toNat - 48)) 0 := by
    intro l
    induction l with
    | nil => intro init; simp
    | cons c rest ih =>
      intro init
      rw [List.foldl_cons, ih (10 * init + (c.toNat - 48)), List.foldl_cons,
        ih (10 * 0 + (c.toNat - 48))]
      simp [List.length_cons]
      ring
  unfold digitsToNat
  rw [List.foldl_append, haux b]

theorem rheNat_approx (a b : ℕ) (hb : 0 < b) :
    |(rheNat a b : ℚ) - (a : ℚ) / (b : ℚ)| ≤ 1 / 2 := by
  have hbq : (0 : ℚ) < (b : ℚ) := by exact_mod_cast hb
  have hbne : (b : ℚ) ≠ 0 := ne_of_gt hbq
  have hmod := Nat.div_add_mod a b
  have haq : (a : ℚ) = (b : ℚ) * (a / b : ℕ) + (a % b : ℕ) := by
    exact_mod_cast hmod.symm
  have hdiv : (a : ℚ) / (b : ℚ) = (a / b : ℕ) + (a % b : ℕ) / (b : ℚ) := by
    rw [haq]
    field_simp
    ring
  have hrlt : ((a % b : ℕ) : ℚ) < (b : ℚ) := by
    exact_mod_cast Nat.mod_lt a hb
  have hrnn : (0 : ℚ) ≤ ((a % b : ℕ) : ℚ) := by positivity
  unfold rheNat
  by_cases h1 : 2 * (a % b) < b
  · rw [if_pos h1]
    have h1q : 2 * ((a % b : ℕ) : ℚ) ≤ (b : ℚ) := by
      exact_mod_cast Nat.le_of_lt h1
    rw [hdiv, abs_le]
    constructor
    · have : ((a % b : ℕ) : ℚ) / (b : ℚ) ≤ 1 / 2 := by
        rw [div_le_div_iff hbq (by norm_num : (0 : ℚ) < 2)]
        linarith
      linarith
    · have : (0 : ℚ) ≤ ((a % b : ℕ) : ℚ) / (b : ℚ) := by positivity
      linarith
  · rw [if_neg h1]
    have h1q : (b : ℚ) ≤ 2 * ((a % b : ℕ) : ℚ) := by
      exact_mod_cast Nat.le_of_not_lt h1
    have hhalf : 1 / 2 ≤ ((a % b : ℕ) : ℚ) / (b : ℚ) := by
      rw [div_le_div_iff (by norm_num : (0 : ℚ) < 2) hbq]
      linarith
    have hlt1 : ((a % b : ℕ) : ℚ) / (b : ℚ) < 1 := by
      rw [div_lt_one hbq]
      exact hrlt
    by_cases h2 : b < 2 * (a % b)
    · rw [if_pos h2]
      rw [hdiv, abs_le]
      constructor
      · push_cast
        linarith
      · have h2q : (b : ℚ) < 2 * ((a % b : ℕ) : ℚ) := by exact_mod_cast h2
        have : 1 / 2 < ((a % b : ℕ) : ℚ) / (b : ℚ) := by
          rw [div_lt_div_iff (by norm_num : (0 : ℚ) < 2) hbq]
          linarith
        push_cast
        linarith
    · have heq : 2 * (a % b) = b := le_antisymm (Nat.le_of_not_lt h2) (Nat.le_of_not_lt h1)
      have hr0 : (0 : ℚ) < ((a % b : ℕ) : ℚ) := by
        have : 0 < a % b := by omega
        exact_mod_cast this
      have heqq : ((a % b : ℕ) : ℚ) / (b : ℚ) = 1 / 2 := by
        have hb2 : (b : ℚ) = 2 * ((a % b : ℕ) : ℚ) := by exact_mod_cast heq.symm
        rw [hb2, div_eq_div_iff (by positivity) (by norm_num : (2 : ℚ) ≠ 0)]
        ring
      rw [if_neg h2]
      by_cases h3 : a / b % 2 = 0
      · rw [if_pos h3, hdiv, heqq, abs_le]
        constructor
        · linarith
        · linarith
      · rw [if_neg h3, hdiv, heqq, abs_le]
        constructor
        · push_cast
          linarith
        · push_cast
          linarith

/-- C7: the Monetary Value Parser ignores every character other than
digits, dots and commas (filtering them away first does not change the
result); commas are discarded as grouping separators, never read as a
decimal separator (dropping them first does not change the result, and
`$1,50` parses as 150.00, not 1.50); the result is `none` exactly when
the cleaned-up remainder is not a valid number (at least one digit, at
most one dot) — the `Option` return type is the no-raise contract — and
a parsed result is the cleaned-up remainder's exact decimal value
rounded to two fractional digits (within half a cent, ties to even). -/
theorem money_parser_contract :
    (∀ s : Str, parse_money_to_float (s.filter keepMoneyChar) = parse_money_to_float s) ∧
    (∀ s : Str, parse_money_to_float (s.filter (fun c => c ≠ ',')) = parse_money_to_float s) ∧
    (∀ s : Str, parse_money_to_float s = none ↔ validNum (moneyDigits s) = false) ∧
    (∀ (s : Str) (c : Cents), parse_money_to_float s = some c →
        |(c : ℚ) - 100 * decValue (moneyDigits s)| ≤ 1 / 2) ∧
    parse_money_to_float "$1,50".data = some 15000 ∧
    parse_money_to_float "$1,250.00".data = some 125000 ∧
    parse_money_to_float "$1,234.567.89".data = none := by
  refine ⟨?_, ?_, ?_, ?_, by decide, by decide, by decide⟩
  · intro s
    simp [parse_money_to_float, moneyDigits_filter_keep]
  · intro s
    have h2 : moneyDigits (List.filter (fun c => !decide (c = ',')) s) =
        moneyDigits s := by simpa using moneyDigits_filter_comma s
    simp [parse_money_to_float, h2]
  · intro s
    by_cases hv : validNum (moneyDigits s) = true <;>
      simp [parse_money_to_float, hv]
  · intro s c h
    simp only [parse_money_to_float] at h
    by_cases hv : validNum (moneyDigits s) = true
    · rw [if_pos hv] at h
      have hc : c = rheNat
          (100 * digitsToNat (intPartDigits (moneyDigits s) ++
            fracPartDigits (moneyDigits s)))
          (10 ^ (fracPartDigits (moneyDigits s)).length) := (Option.some.inj h).symm
      have hb : 0 < 10 ^ (fracPartDigits (moneyDigits s)).length :=
        pow_pos (by norm_num) _
      have happ := rheNat_approx
        (100 * digitsToNat (intPartDigits (moneyDigits s) ++
          fracPartDigits (moneyDigits s)))
        (10 ^ (fracPartDigits (moneyDigits s)).length) hb
      have hval : 100 * decValue (moneyDigits s) =
          ((100 * digitsToNat (intPartDigits (moneyDigits s) ++
              fracPartDigits (moneyDigits s)) : ℕ) : ℚ) /
            ((10 ^ (fracPartDigits (moneyDigits s)).length : ℕ) : ℚ) := by
        unfold decValue
        rw [digitsToNat_append]
        have hbq : ((10 : ℚ) ^ (fracPartDigits (moneyDigits s)).length) ≠ 0 := by
          positivity
        push_cast
        field_simp
      rw [hc, hval]
      exact happ
    · rw [if_neg hv] at h
      exact absurd h (by simp)

/-- C7 witness: the parsed value of `$1,250.00` (125000 cents) is
within half a cent of one hundred times the exact decimal value of its
cleaned-up remainder. -/
theorem money_parser_contract_witness :
    |((125000 : Cents) : ℚ) - 100 * decValue (moneyDigits "$1,250.00".data)| ≤ 1 / 2 :=
  money_parser_contract.2.2.2.1 "$1,250.00".data 125000 (by decide)

theorem explicitObsGo_eq_spec (lz : List (Str × Str)) :
    explicitObsGo lz = explicitPassSpec lz := by
  induction lz with
  | nil => rfl
  | cons p rest ih =>
    obtain ⟨ln, nm⟩ := p
    have hshift : ∀ i : ℕ,
        (match ((ln, nm) :: rest)[i + 1]? with
          | none => none
          | some (_, nm2) =>
            (matchExplicitLine nm2).bind fun g2 =>
              (searchWindow (((((ln, nm) :: rest).map Prod.fst).drop (i + 2)).take 4)).map
                fun v => (normalize_section_name (pyStrip g2), v)) =
        (match rest[i]? with
          | none => none
          | some (_, nm2) =>
            (matchExplicitLine nm2).bind fun g2 =>
              (searchWindow (((rest.map Prod.fst).drop (i + 1)).take 4)).map
                fun v => (normalize_section_name (pyStrip g2), v)) := by
      intro i
      have h1 : ((ln, nm) :: rest)[i + 1]? = rest[i]? := List.getElem?_cons_succ
      have h2 : (((ln, nm) :: rest).map Prod.fst).drop (i + 2) =
          (rest.map Prod.fst).drop (i + 1) := by
        rw [List.map_cons]
        show (ln :: rest.map Prod.fst).drop (i + 1 + 1) = (rest.map Prod.fst).drop (i + 1)
        exact List.drop_succ_cons
      rw [h1, h2]
    have hspec : explicitPassSpec ((ln, nm) :: rest) =
        (match (matchExplicitLine nm).bind (fun g2 =>
            (searchWindow ((rest.map Prod.fst).take 4)).map fun v =>
              (normalize_section_name (pyStrip g2), v)) with
          | some o => o :: explicitPassSpec rest
          | none => explicitPassSpec rest) := by
      unfold explicitPassSpec
      rw [List.length_cons, List.range_succ_eq_map, List.filterMap_cons,
        List.filterMap_map]
      have hcongr :
          List.filterMap ((fun i =>
            match ((ln, nm) :: rest)[i]? with
            | none => none
            | some (_, nm2) =>
              (matchExplicitLine nm2).bind fun g2 =>
                (searchWindow (((((ln, nm) :: rest).map Prod.fst).drop (i + 1)).take 4)).map
                  fun v => (normalize_section_name (pyStrip g2), v)) ∘ Nat.succ)
            (List.range rest.length) =
          List.filterMap (fun i =>
            match rest[i]? with
            | none => none
            | some (_, nm2) =>
              (matchExplicitLine nm2).bind fun g2 =>
                (searchWindow (((rest.map Prod.fst).drop (i + 1)).take 4)).map
                  fun v => (normalize_section_name (pyStrip g2), v))
            (List.range rest.length) := by
        apply List.filterMap_congr
        intro i _
        exact hshift i
      rw [hcongr]
      simp only [List.getElem?_cons_zero, List.map_cons, List.drop_succ_cons,
        List.drop_zero]
      cases hm2 : matchExplicitLine nm
      · rfl
      · cases hw2 : searchWindow ((rest.map Prod.fst).take 4) <;> rfl
    rw [hspec]
    simp only [explicitObsGo, ih]
    cases hm : matchExplicitLine nm
    · rfl
    case some g2 =>
      cases hw : searchWindow ((rest.map Prod.fst).take 4)
      · rfl
      · rfl

/-- C1: the Extractor's explicit pass is exactly the index-form
description of the spec — for every line matching the whole-line
"section-introducer + label" pattern it canonicalizes the label and
searches forward at most 4 subsequent lines for the first monetary
token that parses, recording the pair only then — and on the raw text
`"SECTION VIP\n\n$1,250.00\n"` the Extractor returns
`{"VIP": 1250.00}` (125000 cents). -/
theorem extractor_explicit_pass :
    (∀ lz : List (Str × Str), explicitObsGo lz = explicitPassSpec lz) ∧
    extract_from_text_blocks "SECTION VIP\n\n$1,250.00\n".data =
      [("VIP".data, 125000)] :=
  ⟨explicitObsGo_eq_spec, by decide⟩

/-! ### Blank lines and the lookahead window -/

set_option maxHeartbeats 1000000 in
theorem slGo_cons_nonbdry (c : Char) (cs acc : Str)
    (h : isLineBoundary c = false) : slGo (c :: cs) acc = slGo cs (c :: acc) := by
  have hif : ¬ isLineBoundary c = true := by simp [h]
  cases cs with
  | nil =>
    rw [slGo.eq_4 acc c (fun _ _ hh => List.noConfusion hh), if_neg hif]
  | cons d ds =>
    have hc : c ≠ '\r' := by
      intro he
      rw [he] at h
      simp [isLineBoundary] at h
    rw [slGo.eq_5 acc c d ds (fun _ hcr _ => absurd hcr hc), if_neg hif]

theorem slGo_newline (rest acc : Str) (h : rest ≠ []) :
    slGo ('\n' :: rest) acc = acc.reverse :: slGo rest [] := by
  cases rest with
  | nil => exact absurd rfl h
  | cons d ds =>
    rw [slGo.eq_5 acc '\n' d ds (fun _ h12 _ => absurd h12 (by decide)),
      if_pos (by decide)]

theorem slGo_blanks (n : ℕ) (rest : Str) (h : rest ≠ []) :
    slGo (List.replicate n '\n' ++ rest) [] =
      List.replicate n [] ++ slGo rest [] := by
  induction n with
  | zero => simp
  | succ m ih =>
    have hne : List.replicate m '\n' ++ rest ≠ [] := by
      cases m with
      | zero => simpa using h
      | succ _ => simp [List.replicate]
    rw [List.replicate_succ, List.cons_append, slGo_newline _ _ hne, ih]
    simp [List.replicate_succ]

theorem slGo_text (pre : Str) :
    pre.all (fun c => !isLineBoundary c) = true →
    ∀ cs acc, slGo (pre ++ cs) acc = slGo cs (pre.reverse ++ acc) := by
  induction pre with
  | nil =>
    intro _ cs acc
    simp
  | cons c ps ih =>
    intro hall cs acc
    simp only [List.all_cons, Bool.and_eq_true, Bool.not_eq_true'] at hall
    rw [List.cons_append, slGo_cons_nonbdry c _ _ hall.1, ih hall.2 cs (c :: acc)]
    simp [List.reverse_cons, List.append_assoc]

theorem filter_replicate_nil (n : ℕ) :
    (List.replicate n ([] : Str)).filter (fun ln => ln ≠ []) = [] := by
  induction n with
  | zero => rfl
  | succ m ih => simp [List.replicate_succ, List.filter_cons, ih]

theorem visibleLines_blanks (n : ℕ) (tail : Str) (ht : tail ≠ []) :
    visibleLines ("SECTION VIP\n".data ++ (List.replicate n '\n' ++ tail)) =
      "SECTION VIP".data :: visibleLines tail := by
  have hmid : List.replicate n '\n' ++ tail ≠ [] := by
    cases n with
    | zero => simpa using ht
    | succ _ => simp [List.replicate]
  have hsplit :
      pySplitlines ("SECTION VIP\n".data ++ (List.replicate n '\n' ++ tail)) =
        "SECTION VIP".data :: (List.replicate n [] ++ slGo tail []) := by
    have h0 : pySplitlines ("SECTION VIP\n".data ++ (List.replicate n '\n' ++ tail)) =
        slGo ("SECTION VIP".data ++ ('\n' :: (List.replicate n '\n' ++ tail))) [] := rfl
    rw [h0, slGo_text "SECTION VIP".data (by decide) _ [],
      slGo_newline _ _ hmid, slGo_blanks n tail ht]
    simp
  have hstrip : pyStrip "SECTION VIP".data = "SECTION VIP".data := by decide
  have htail : ((slGo tail []).map pyStrip).filter (fun ln => ln ≠ []) =
      visibleLines tail := by
    unfold visibleLines
    cases tail with
    | nil => exact absurd rfl ht
    | cons d ds => rfl
  unfold visibleLines
  rw [hsplit]
  simp only [List.map_cons, List.map_append, List.map_replicate, List.filter_cons,
    List.filter_append, hstrip]
  rw [show pyStrip ([] : Str) = [] from rfl, filter_replicate_nil]
  simp only [List.nil_append]
  rw [if_pos (by decide)]
  unfold visibleLines at htail
  rw [htail]

/-- C10: the Extractor discards blank and whitespace-only lines before
any matching, so the 4-line lookahead counts only non-blank lines: for
every number `n` of blank lines between the label and the price the
pair is still recorded; with up to three further non-empty lines in
between it is still within the window; with four it is not; and
whitespace-only lines count as blank. -/
theorem blank_line_window :
    (∀ n : ℕ, extract_from_text_blocks
        ("SECTION VIP\n".data ++ (List.replicate n '\n' ++ "$1,250.00\n".data)) =
        [("VIP".data, 125000)]) ∧
    (∀ n : ℕ, extract_from_text_blocks
        ("SECTION VIP\n".data ++
          (List.replicate n '\n' ++ "AAA\nBBB\nCCC\n$1,250.00\n".data)) =
        [("VIP".data, 125000)]) ∧
    extract_from_text_blocks "SECTION VIP\nAAA\nBBB\nCCC\nDDD\n$1,250.00\n".data =
      [] ∧
    extract_from_text_blocks "SECTION VIP\n   \n\t\n$1,250.00\n".data =
      [("VIP".data, 125000)] := by
  refine ⟨?_, ?_, by decide, by decide⟩
  · intro n
    have hv := visibleLines_blanks n "$1,250.00\n".data (by decide)
    have hv2 : visibleLines "$1,250.00\n".data = ["$1,250.00".data] := by decide
    rw [hv2] at hv
    simp only [extract_from_text_blocks, textObs, linePairs, hv]
    decide
  · intro n
    have hv := visibleLines_blanks n "AAA\nBBB\nCCC\n$1,250.00\n".data (by decide)
    have hv2 : visibleLines "AAA\nBBB\nCCC\n$1,250.00\n".data =
        ["AAA".data, "BBB".data, "CCC".data, "$1,250.00".data] := by decide
    rw [hv2] at hv
    simp only [extract_from_text_blocks, textObs, linePairs, hv]
    decide

/-! ### The canonicalizer -/

theorem upChar_spec (c : Char) :
    upChar c = c ∨ ∃ p ∈ upPairs, p.1 = c ∧ upChar c = p.2 := by
  unfold upChar
  cases hf : upPairs.find? (fun p => p.1 = c) with
  | none => exact Or.inl rfl
  | some p =>
    right
    refine ⟨p, List.mem_of_find?_eq_some hf, ?_, rfl⟩
    have := List.find?_some hf
    simpa using this

theorem upChar_upChar (c : Char) : upChar (upChar c) = upChar c := by
  rcases upChar_spec c with h | ⟨p, hp, hpc, hc⟩
  · rw [h]
    exact h
  · rw [hc]
    fin_cases hp <;> decide

theorem isPySpace_upChar (c : Char) : isPySpace (upChar c) = isPySpace c := by
  rcases upChar_spec c with h | ⟨p, hp, hpc, hc⟩
  · rw [h]
  · rw [hc, ← hpc]
    fin_cases hp <;> decide

theorem pyUpper_pyUpper (s : Str) : pyUpper (pyUpper s) = pyUpper s := by
  unfold pyUpper
  rw [List.map_map]
  exact List.map_congr_left (fun c _ => upChar_upChar c)

theorem dropWhile_pyUpper (s : Str) :
    (pyUpper s).dropWhile isPySpace = pyUpper (s.dropWhile isPySpace) := by
  induction s with
  | nil => rfl
  | cons c rest ih =>
    show (upChar c :: pyUpper rest).dropWhile isPySpace = _
    cases hs : isPySpace c with
    | true =>
      rw [List.dropWhile_cons_of_pos (by rw [isPySpace_upChar]; exact hs), ih,
        List.dropWhile_cons_of_pos hs]
    | false =>
      rw [List.dropWhile_cons_of_neg (by rw [isPySpace_upChar]; simp [hs]),
        List.dropWhile_cons_of_neg (by simp [hs])]
      rfl

theorem pyStrip_pyUpper (s : Str) :
    pyStrip (pyUpper s) = pyUpper (pyStrip s) := by
  unfold pyStrip
  rw [dropWhile_pyUpper]
  have h1 : (pyUpper (s.dropWhile isPySpace)).reverse =
      pyUpper ((s.dropWhile isPySpace).reverse) := by
    unfold pyUpper
    rw [List.reverse_map]
  rw [h1, dropWhile_pyUpper]
  unfold pyUpper
  rw [List.reverse_map]

theorem collapseGo_pyUpper (s : Str) :
    ∀ b, collapseGo b (pyUpper s) = pyUpper (collapseGo b s) := by
  induction s with
  | nil => intro b; rfl
  | cons c rest ih =>
    intro b
    show collapseGo b (upChar c :: pyUpper rest) = _
    cases hs : isPySpace c with
    | true =>
      have hs2 : isPySpace (upChar c) = true := by rw [isPySpace_upChar]; exact hs
      cases b with
      | true => simp only [collapseGo, hs, hs2, if_true, ih]
      | false =>
        simp only [collapseGo, hs, hs2, if_true, if_false, ih]
        rfl
    | false =>
      have hs2 : isPySpace (upChar c) = false := by rw [isPySpace_upChar]; exact hs
      simp only [collapseGo, hs, hs2, Bool.false_eq_true, if_false, ih]
      rfl

theorem collapseWs_pyUpper (s : Str) :
    collapseWs (pyUpper s) = pyUpper (collapseWs s) :=
  collapseGo_pyUpper s false

theorem dropPrefixCI_pyUpper (p : Str) :
    ∀ s, dropPrefixCI p (pyUpper s) = (dropPrefixCI p s).map pyUpper := by
  induction p with
  | nil => intro s; rfl
  | cons x xs ih =>
    intro s
    cases s with
    | nil => rfl
    | cons c cs =>
      show dropPrefixCI (x :: xs) (upChar c :: pyUpper cs) = _
      by_cases hx : upChar x = upChar c
      · rw [show dropPrefixCI (x :: xs) (upChar c :: pyUpper cs) =
            (if upChar x = upChar (upChar c) then dropPrefixCI xs (pyUpper cs)
             else none) from rfl]
        rw [upChar_upChar, if_pos hx, ih cs,
          show dropPrefixCI (x :: xs) (c :: cs) =
            (if upChar x = upChar c then dropPrefixCI xs cs else none) from rfl,
          if_pos hx]
      · rw [show dropPrefixCI (x :: xs) (upChar c :: pyUpper cs) =
            (if upChar x = upChar (upChar c) then dropPrefixCI xs (pyUpper cs)
             else none) from rfl]
        rw [upChar_upChar, if_neg hx,
          show dropPrefixCI (x :: xs) (c :: cs) =
            (if upChar x = upChar c then dropPrefixCI xs cs else none) from rfl,
          if_neg hx]
        rfl

theorem sectionIntroDrop_pyUpper (s : Str) :
    sectionIntroDrop (pyUpper s) = (sectionIntroDrop s).map pyUpper := by
  unfold sectionIntroDrop
  dsimp only
  rw [dropWhile_pyUpper, dropPrefixCI_pyUpper]
  cases hd : dropPrefixCI ['S', 'e', 'c', 't', 'i', 'o', 'n'] (s.dropWhile isPySpace) with
  | none => rfl
  | some r =>
    cases r with
    | nil => rfl
    | cons c rest =>
      show (match upChar c :: pyUpper rest with
        | [] => none
        | c2 :: _ =>
          if isPySpace c2 then
            some ((upChar c :: pyUpper rest).dropWhile isPySpace) else none) = _
      cases hs : isPySpace c with
      | true =>
        have hs2 : isPySpace (upChar c) = true := by rw [isPySpace_upChar]; exact hs
        simp only [hs, hs2, if_true]
        rw [show (upChar c :: pyUpper rest) = pyUpper (c :: rest) from rfl,
          dropWhile_pyUpper]
        rfl
      | false =>
        have hs2 : isPySpace (upChar c) = false := by rw [isPySpace_upChar]; exact hs
        simp only [hs, hs2, Bool.false_eq_true, if_false]
        rfl

theorem normalize_pyUpper (s : Str) :
    normalize_section_name (pyUpper s) = normalize_section_name s := by
  unfold normalize_section_name
  rw [sectionIntroDrop_pyUpper]
  cases hd : sectionIntroDrop s with
  | none =>
    show pyUpper (pyStrip (collapseWs (pyUpper s))) = pyUpper (pyStrip (collapseWs s))
    rw [collapseWs_pyUpper, pyStrip_pyUpper, pyUpper_pyUpper]
  | some r =>
    show pyUpper (pyStrip (collapseWs (pyUpper r))) = pyUpper (pyStrip (collapseWs r))
    rw [collapseWs_pyUpper, pyStrip_pyUpper, pyUpper_pyUpper]

theorem collapseGo_true_head (s : Str) : noHeadWs (collapseGo true s) = true := by
  induction s with
  | nil => rfl
  | cons c rest ih =>
    cases hs : isPySpace c with
    | true => simp only [collapseGo, hs, if_true]; exact ih
    | false => simp [collapseGo, hs, noHeadWs]

theorem wsOk_cons (c : Char) (l : Str) (h : wsOk (c :: l) = true) : wsOk l = true := by
  cases l with
  | nil => rfl
  | cons d ds =>
    simp only [wsOk, Bool.and_eq_true] at h
    exact h.2

theorem wsOk_collapseGo (s : Str) : ∀ b, wsOk (collapseGo b s) = true := by
  induction s with
  | nil => intro b; rfl
  | cons c rest ih =>
    intro b
    cases hs : isPySpace c with
    | false =>
      have hb : collapseGo b (c :: rest) = c :: collapseGo false rest := by
        cases b <;> simp [collapseGo, hs]
      rw [hb]
      cases hX : collapseGo false rest with
      | nil => simp [wsOk, hs]
      | cons d ds =>
        have hw : wsOk (d :: ds) = true := by rw [← hX]; exact ih false
        simp [wsOk, hs, hw]
    | true =>
      cases b with
      | true =>
        have hb : collapseGo true (c :: rest) = collapseGo true rest := by
          simp [collapseGo, hs]
        rw [hb]
        exact ih true
      | false =>
        have hb : collapseGo false (c :: rest) = ' ' :: collapseGo true rest := by
          simp [collapseGo, hs]
        rw [hb]
        cases hX : collapseGo true rest with
        | nil => decide
        | cons d ds =>
          have hw : wsOk (d :: ds) = true := by rw [← hX]; exact ih true
          have hd : isPySpace d = false := by
            have hhead := collapseGo_true_head rest
            rw [hX] at hhead
            simpa [noHeadWs] using hhead
          have hsp : isPySpace ' ' = true := by decide
          simp [wsOk, hw, hd, hsp]

theorem wsOk_append_left (l m : Str) (h : wsOk (l ++ m) = true) : wsOk l = true := by
  induction l with
  | nil => rfl
  | cons c rest ih =>
    cases rest with
    | nil =>
      cases m with
      | nil => exact h
      | cons d ds =>
        simp only [List.cons_append, List.nil_append, wsOk, Bool.and_eq_true] at h
        rcases Bool.or_eq_true_iff.1 h.1 with h1 | h1
        · simp [wsOk, h1]
        · simp only [Bool.and_eq_true] at h1
          simp [wsOk, h1.1]
    | cons e es =>
      have h1 : wsOk ((e :: es) ++ m) = true := wsOk_cons c _ h
      have h2 := ih h1
      simp only [List.cons_append, wsOk, Bool.and_eq_true] at h
      simp only [wsOk, Bool.and_eq_true]
      exact ⟨h.1, h2⟩

theorem wsOk_dropWhile (l : Str) (h : wsOk l = true) :
    wsOk (l.dropWhile isPySpace) = true := by
  induction l with
  | nil => rfl
  | cons c rest ih =>
    cases hs : isPySpace c with
    | true =>
      rw [List.dropWhile_cons_of_pos hs]
      exact ih (wsOk_cons c rest h)
    | false =>
      rw [List.dropWhile_cons_of_neg (by simp [hs])]
      exact h

theorem strip_decomp (a : Str) :
    a = (a.reverse.dropWhile isPySpace).reverse ++
      (a.reverse.takeWhile isPySpace).reverse := by
  have h : a.reverse.takeWhile isPySpace ++ a.reverse.dropWhile isPySpace =
      a.reverse := by simp
  calc a = a.reverse.reverse := (List.reverse_reverse a).symm
  _ = (a.reverse.takeWhile isPySpace ++ a.reverse.dropWhile isPySpace).reverse := by
      rw [h]
  _ = (a.reverse.dropWhile isPySpace).reverse ++
      (a.reverse.takeWhile isPySpace).reverse := by rw [List.reverse_append]

theorem noHeadWs_dropWhile (l : Str) : noHeadWs (l.dropWhile isPySpace) = true := by
  induction l with
  | nil => rfl
  | cons c rest ih =>
    cases hs : isPySpace c with
    | true => rw [List.dropWhile_cons_of_pos hs]; exact ih
    | false => rw [List.dropWhile_cons_of_neg (by simp [hs])]; simp [noHeadWs, hs]

theorem dropWhile_of_noHeadWs (l : Str) (h : noHeadWs l = true) :
    l.dropWhile isPySpace = l := by
  cases l with
  | nil => rfl
  | cons c rest =>
    simp only [noHeadWs, Bool.not_eq_true'] at h
    rw [List.dropWhile_cons_of_neg (by simp [h])]

theorem noHeadWs_append_left (t x : Str) (h : noHeadWs (t ++ x) = true) :
    noHeadWs t = true := by
  cases t with
  | nil => rfl
  | cons c rest => exact h

theorem pyStrip_noHead (v : Str) :
    noHeadWs (pyStrip v) = true ∧ noHeadWs (pyStrip v).reverse = true := by
  constructor
  · have hdec := strip_decomp (v.dropWhile isPySpace)
    have hh := noHeadWs_dropWhile v
    unfold pyStrip
    exact noHeadWs_append_left _ _ (by rw [← hdec]; exact hh)
  · unfold pyStrip
    rw [List.reverse_reverse]
    exact noHeadWs_dropWhile _

theorem pyStrip_of_clean (t : Str) (h1 : noHeadWs t = true)
    (h2 : noHeadWs t.reverse = true) : pyStrip t = t := by
  unfold pyStrip
  rw [dropWhile_of_noHeadWs t h1, dropWhile_of_noHeadWs t.reverse h2,
    List.reverse_reverse]

theorem pyStrip_pyStrip (v : Str) : pyStrip (pyStrip v) = pyStrip v :=
  pyStrip_of_clean _ (pyStrip_noHead v).1 (pyStrip_noHead v).2

theorem wsOk_pyStrip (v : Str) (h : wsOk v = true) : wsOk (pyStrip v) = true := by
  have h1 : wsOk (v.dropWhile isPySpace) = true := wsOk_dropWhile v h
  have hdec := strip_decomp (v.dropWhile isPySpace)
  unfold pyStrip
  exact wsOk_append_left _ _ (by rw [← hdec]; exact h1)

theorem collapseGo_of_wsOk (l : Str) :
    wsOk l = true →
      (collapseGo false l = l ∧ (noHeadWs l = true → collapseGo true l = l)) := by
  induction l with
  | nil => intro _; exact ⟨rfl, fun _ => rfl⟩
  | cons c rest ih =>
    intro h
    obtain ⟨ih1, ih2⟩ := ih (wsOk_cons c rest h)
    cases hs : isPySpace c with
    | false =>
      have hb : ∀ b, collapseGo b (c :: rest) = c :: collapseGo false rest := by
        intro b
        cases b <;> simp [collapseGo, hs]
      exact ⟨by rw [hb false, ih1], fun _ => by rw [hb true, ih1]⟩
    | true =>
      have hc : c = ' ' ∧ noHeadWs rest = true := by
        cases rest with
        | nil =>
          refine ⟨?_, rfl⟩
          simp only [wsOk, hs, Bool.not_true, Bool.false_or] at h
          simpa using h
        | cons d ds =>
          simp only [wsOk, hs, Bool.not_true, Bool.false_or, Bool.and_eq_true] at h
          refine ⟨by simpa using h.1.1, ?_⟩
          simp [noHeadWs, h.1.2]
      constructor
      · have hb : collapseGo false (c :: rest) = ' ' :: collapseGo true rest := by
          simp [collapseGo, hs]
        rw [hb, ih2 hc.2, hc.1]
      · intro hh
        rw [hc.1] at hh
        simp only [noHeadWs, Bool.not_eq_true'] at hh
        exact absurd hh (by decide)

theorem collapseWs_of_wsOk (l : Str) (h : wsOk l = true) : collapseWs l = l :=
  (collapseGo_of_wsOk l h).1

theorem strip_collapse_fix (r : Str) :
    collapseWs (pyUpper (pyStrip (collapseWs r))) = pyUpper (pyStrip (collapseWs r)) ∧
    pyStrip (pyUpper (pyStrip (collapseWs r))) = pyUpper (pyStrip (collapseWs r)) ∧
    pyUpper (pyUpper (pyStrip (collapseWs r))) = pyUpper (pyStrip (collapseWs r)) := by
  have hws : wsOk (collapseWs r) = true := wsOk_collapseGo r false
  have hu : wsOk (pyStrip (collapseWs r)) = true := wsOk_pyStrip _ hws
  refine ⟨?_, ?_, pyUpper_pyUpper _⟩
  · rw [collapseWs_pyUpper, collapseWs_of_wsOk _ hu]
  · rw [pyStrip_pyUpper, pyStrip_pyStrip]

theorem normalize_eq_form (s : Str) :
    ∃ r, normalize_section_name s = pyUpper (pyStrip (collapseWs r)) := by
  unfold normalize_section_name
  cases sectionIntroDrop s with
  | none => exact ⟨s, rfl⟩
  | some r => exact ⟨r, rfl⟩

theorem normalize_of_no_intro (t : Str) (ht : sectionIntroDrop t = none) :
    normalize_section_name t = pyUpper (pyStrip (collapseWs t)) := by
  unfold normalize_section_name
  rw [ht]

theorem normalize_idem_of_no_intro (s : Str)
    (h : sectionIntroDrop (normalize_section_name s) = none) :
    normalize_section_name (normalize_section_name s) = normalize_section_name s := by
  obtain ⟨r, hr⟩ := normalize_eq_form s
  rw [normalize_of_no_intro _ h, hr]
  obtain ⟨h1, h2, h3⟩ := strip_collapse_fix r
  rw [h1, h2, h3]

theorem collapseGo_true_dropWhile (s : Str) :
    collapseGo true (s.dropWhile isPySpace) = collapseGo true s := by
  induction s with
  | nil => rfl
  | cons c r ih =>
    cases hs : isPySpace c with
    | true =>
      rw [List.dropWhile_cons_of_pos hs, ih]
      simp [collapseGo, hs]
    | false => rw [List.dropWhile_cons_of_neg (by simp [hs])]

theorem collapseGo_true_eq_false (t : Str) (h : noHeadWs t = true) :
    collapseGo true t = collapseGo false t := by
  cases t with
  | nil => rfl
  | cons c r =>
    simp only [noHeadWs, Bool.not_eq_true'] at h
    simp [collapseGo, h]

theorem dropWhile_collapseWs_eq (s : Str) :
    (collapseWs s).dropWhile isPySpace = collapseWs (s.dropWhile isPySpace) := by
  have h1 : (collapseWs s).dropWhile isPySpace =
      collapseGo true (s.dropWhile isPySpace) := by
    cases s with
    | nil => rfl
    | cons c r =>
      cases hs : isPySpace c with
      | true =>
        have hb : collapseWs (c :: r) = ' ' :: collapseGo true r := by
          simp [collapseWs, collapseGo, hs]
        rw [hb, List.dropWhile_cons_of_pos (by decide : isPySpace ' ' = true),
          dropWhile_of_noHeadWs _ (collapseGo_true_head r),
          List.dropWhile_cons_of_pos hs, collapseGo_true_dropWhile]
      | false =>
        have hb : collapseWs (c :: r) = c :: collapseGo false r := by
          simp [collapseWs, collapseGo, hs]
        rw [hb, List.dropWhile_cons_of_neg (by simp [hs]),
          List.dropWhile_cons_of_neg (by simp [hs])]
        simp [collapseGo, hs]
  rw [h1, collapseGo_true_eq_false _ (noHeadWs_dropWhile s)]
  rfl

theorem dropPrefixCI_collapseWs (kw : Str) :
    ∀ t, kw.all (fun ch => !isPySpace (upChar ch)) = true →
      dropPrefixCI kw (collapseWs t) = (dropPrefixCI kw t).map collapseWs := by
  induction kw with
  | nil => intro t _; rfl
  | cons x kws ih =>
    intro t hall
    simp only [List.all_cons, Bool.and_eq_true, Bool.not_eq_true'] at hall
    cases t with
    | nil => rfl
    | cons c r =>
      cases hs : isPySpace c with
      | true =>
        have hb : collapseWs (c :: r) = ' ' :: collapseGo true r := by
          simp [collapseWs, collapseGo, hs]
        have hxs : ¬ upChar x = upChar ' ' := fun he => by
          have h2 : isPySpace (upChar x) = isPySpace (upChar ' ') := by rw [he]
          rw [hall.1] at h2
          exact absurd h2.symm (by decide)
        have hxc : ¬ upChar x = upChar c := fun he => by
          have h2 : isPySpace (upChar x) = isPySpace (upChar c) := by rw [he]
          rw [hall.1, isPySpace_upChar, hs] at h2
          exact Bool.noConfusion h2
        rw [hb,
          show dropPrefixCI (x :: kws) (' ' :: collapseGo true r) =
            (if upChar x = upChar ' ' then dropPrefixCI kws (collapseGo true r)
             else none) from rfl,
          if_neg hxs,
          show dropPrefixCI (x :: kws) (c :: r) =
            (if upChar x = upChar c then dropPrefixCI kws r else none) from rfl,
          if_neg hxc]
        rfl
      | false =>
        have hb : collapseWs (c :: r) = c :: collapseGo false r := by
          simp [collapseWs, collapseGo, hs]
        rw [hb,
          show dropPrefixCI (x :: kws) (c :: collapseGo false r) =
            (if upChar x = upChar c then dropPrefixCI kws (collapseGo false r)
             else none) from rfl,
          show dropPrefixCI (x :: kws) (c :: r) =
            (if upChar x = upChar c then dropPrefixCI kws r else none) from rfl]
        by_cases hx : upChar x = upChar c
        · rw [if_pos hx, if_pos hx]
          exact ih r hall.2
        · rw [if_neg hx, if_neg hx]
          rfl

theorem sectionIntroDrop_collapseWs (s : Str) :
    sectionIntroDrop (collapseWs s) = (sectionIntroDrop s).map collapseWs := by
  unfold sectionIntroDrop
  dsimp only
  rw [dropWhile_collapseWs_eq, dropPrefixCI_collapseWs _ _ (by decide)]
  cases hd : dropPrefixCI ['S', 'e', 'c', 't', 'i', 'o', 'n'] (s.dropWhile isPySpace) with
  | none => rfl
  | some r =>
    cases r with
    | nil => rfl
    | cons c rest =>
      show (match collapseWs (c :: rest) with
        | [] => none
        | c2 :: _ =>
          if isPySpace c2 then
            some ((collapseWs (c :: rest)).dropWhile isPySpace) else none) = _
      cases hs : isPySpace c with
      | true =>
        have hb : collapseWs (c :: rest) = ' ' :: collapseGo true rest := by
          simp [collapseWs, collapseGo, hs]
        rw [hb]
        simp only [show isPySpace ' ' = true from rfl, hs, if_true]
        rw [← hb, dropWhile_collapseWs_eq]
        rfl
      | false =>
        have hb : collapseWs (c :: rest) = c :: collapseGo false rest := by
          simp [collapseWs, collapseGo, hs]
        rw [hb]
        simp only [hs, Bool.false_eq_true, if_false]
        rfl

theorem collapseWs_collapseWs (s : Str) : collapseWs (collapseWs s) = collapseWs s :=
  collapseWs_of_wsOk _ (wsOk_collapseGo s false)

theorem normalize_collapseWs (s : Str) :
    normalize_section_name (collapseWs s) = normalize_section_name s := by
  unfold normalize_section_name
  rw [sectionIntroDrop_collapseWs]
  cases hd : sectionIntroDrop s with
  | none =>
    show pyUpper (pyStrip (collapseWs (collapseWs s))) = pyUpper (pyStrip (collapseWs s))
    rw [collapseWs_collapseWs]
  | some r =>
    show pyUpper (pyStrip (collapseWs (collapseWs r))) = pyUpper (pyStrip (collapseWs r))
    rw [collapseWs_collapseWs]

/-- C8 counterexample: canonicalization is not idempotent on its own
outputs — `"Section Section A"` canonicalizes to `"SECTION A"`, which
canonicalizes again to `"A"`.  (The same input also shows that two raw
labels differing only in a leading introducer word can get different
keys.) -/
theorem canonicalizer_idem_cex :
    normalize_section_name "Section Section A".data = "SECTION A".data ∧
    normalize_section_name (normalize_section_name "Section Section A".data) =
      "A".data ∧
    normalize_section_name (normalize_section_name "Section Section A".data) ≠
      normalize_section_name "Section Section A".data :=
  ⟨by decide, by decide, by decide⟩

/-- C8 (amended): the Name Canonicalizer is idempotent on every output
that does not itself begin with a section-introducer word; raw labels
differing only in character case canonicalize to the same key; raw
labels differing only in whitespace runs (two labels whose
whitespace-collapsed forms agree) canonicalize to the same key; and
`"Section VIP 3"` and `"section   vip 3"` both canonicalize to
`"VIP 3"`. -/
theorem canonicalizer_contract (s t : Str) :
    (sectionIntroDrop (normalize_section_name s) = none →
        normalize_section_name (normalize_section_name s) =
          normalize_section_name s) ∧
    (pyUpper s = pyUpper t →
        normalize_section_name s = normalize_section_name t) ∧
    (collapseWs s = collapseWs t →
        normalize_section_name s = normalize_section_name t) ∧
    normalize_section_name "Section VIP 3".data = "VIP 3".data ∧
    normalize_section_name "section   vip 3".data = "VIP 3".data := by
  refine ⟨normalize_idem_of_no_intro s, ?_, ?_, by decide, by decide⟩
  · intro h
    rw [← normalize_pyUpper s, ← normalize_pyUpper t, h]
  · intro h
    rw [← normalize_collapseWs s, ← normalize_collapseWs t, h]

/-- C8 witness: the canonical form of `"Section VIP 3"` does not start
with an introducer, so canonicalizing it again returns it unchanged;
upper-casing first does not change the canonical key; and widening the
internal whitespace runs does not change the canonical key. -/
theorem canonicalizer_contract_witness :
    normalize_section_name (normalize_section_name "Section VIP 3".data) =
      normalize_section_name "Section VIP 3".data ∧
    normalize_section_name "sEcTiOn vip 3".data =
      normalize_section_name "SECTION VIP 3".data ∧
    normalize_section_name "Section   VIP  3".data =
      normalize_section_name "Section VIP 3".data :=
  ⟨(canonicalizer_contract "Section VIP 3".data "Section VIP 3".data).1 (by decide),
   (canonicalizer_contract "sEcTiOn vip 3".data "SECTION VIP 3".data).2.1 (by decide),
   (canonicalizer_contract "Section   VIP  3".data "Section VIP 3".data).2.2.1
     (by decide)⟩
